import Mathlib

set_option maxRecDepth 8000

/-!
Shallow embedding of the StorageLess client-side storage module
(src/app.ts): the CookieStorage and UriStorage backends, the Project and
Version record types, and the StorageModule aggregator.

Modelling conventions:
- JS strings are lists of Unicode scalar values (Lean Char).
- The external primitives the code calls (encodeURIComponent,
  decodeURIComponent with UTF-8 byte handling, JSON.stringify and
  JSON.parse restricted to the Project schema, the browser cookie jar and
  the location fragment) are modelled as executable Lean functions below.
- JS exceptions are modelled with Except; a thrown error is Except.error.
  Code the source wraps in try/catch is split into a "Body" function
  (the code inside the try, which may error) and the public operation
  (which applies the catch clause).
- JSON.parse is modelled as a parser of exactly the canonical text that
  JSON.stringify produces for the Project schema; stored text that is
  JSON but not Project-shaped is treated as a decode failure, which is
  observationally the same to the typed callers of the backends.
- All recursion is structural (fuel-based where the source recursion is
  not structural), so every definition evaluates by kernel reduction.
-/

/-! ## Character constants -/

def sc : Char := Char.ofNat 59
def sp : Char := Char.ofNat 32
def amp : Char := Char.ofNat 38
def eqc : Char := Char.ofNat 61
def pc : Char := Char.ofNat 37
def qt : Char := Char.ofNat 34
def bsl : Char := Char.ofNat 92
def lbr : Char := Char.ofNat 123
def rbr : Char := Char.ofNat 125
def lbk : Char := Char.ofNat 91
def rbk : Char := Char.ofNat 93
def cma : Char := Char.ofNat 44
def cln : Char := Char.ofNat 58
def mns : Char := Char.ofNat 45

/-! ## JS string primitives -/

/-- JS String.prototype.startsWith: the first argument is the candidate
leading segment and the second the receiver string. -/
def startsWith : List Char → List Char → Bool
  | [], _ => true
  | _ :: _, [] => false
  | a :: as, b :: bs => a == b && startsWith as bs

/-- JS String.prototype.includes for a single-character needle. -/
def hasChar (c : Char) : List Char → Bool
  | [] => false
  | d :: rest => d == c || hasChar c rest

/-- JS String.prototype.split with a non-empty separator s0 :: srest,
fuel-based so that it is structurally recursive.  With fuel at least the
length of the input this is exactly JS split. -/
def jsSplitF (s0 : Char) (srest : List Char) : Nat → List Char → List (List Char)
  | _, [] => [[]]
  | 0, l => [l]
  | fuel + 1, c :: rest =>
    if startsWith (s0 :: srest) (c :: rest) then
      [] :: jsSplitF s0 srest fuel (List.drop srest.length rest)
    else
      match jsSplitF s0 srest fuel rest with
      | [] => [[c]]
      | t :: ts => (c :: t) :: ts

/-- JS String.prototype.split with non-empty separator s0 :: srest. -/
def jsSplit (s0 : Char) (srest : List Char) (l : List Char) : List (List Char) :=
  jsSplitF s0 srest l.length l

/-- Expect a literal leading segment and return the remaining input. -/
def expectLit : List Char → List Char → Option (List Char)
  | [], l => some l
  | _ :: _, [] => none
  | c :: cs, d :: l => if c == d then expectLit cs l else none

/-! ## Percent-encoding (encodeURIComponent / decodeURIComponent) -/

/-- The characters encodeURIComponent leaves unescaped: ASCII
alphanumerics and - _ . ! ~ * ' ( ). -/
def isUnreserved (c : Char) : Bool :=
  (48 ≤ c.toNat && c.toNat ≤ 57) || (65 ≤ c.toNat && c.toNat ≤ 90) ||
  (97 ≤ c.toNat && c.toNat ≤ 122) ||
  c.toNat == 45 || c.toNat == 95 || c.toNat == 46 || c.toNat == 33 ||
  c.toNat == 126 || c.toNat == 42 || c.toNat == 39 || c.toNat == 40 ||
  c.toNat == 41

def hexUp (n : Nat) : Char :=
  if n < 10 then Char.ofNat (48 + n) else Char.ofNat (55 + n)

def hexLo (n : Nat) : Char :=
  if n < 10 then Char.ofNat (48 + n) else Char.ofNat (87 + n)

def hexVal (c : Char) : Option Nat :=
  if 48 ≤ c.toNat ∧ c.toNat ≤ 57 then some (c.toNat - 48)
  else if 65 ≤ c.toNat ∧ c.toNat ≤ 70 then some (c.toNat - 55)
  else if 97 ≤ c.toNat ∧ c.toNat ≤ 102 then some (c.toNat - 87)
  else none

/-- UTF-8 bytes of a Unicode scalar value. -/
def utf8Bytes (c : Char) : List Nat :=
  let n := c.toNat
  if n < 128 then [n]
  else if n < 2048 then [192 + n / 64, 128 + n % 64]
  else if n < 65536 then [224 + n / 4096, 128 + n / 64 % 64, 128 + n % 64]
  else [240 + n / 262144, 128 + n / 4096 % 64, 128 + n / 64 % 64, 128 + n % 64]

def pctByte (b : Nat) : List Char := [pc, hexUp (b / 16), hexUp (b % 16)]

def encodeChar (c : Char) : List Char :=
  if isUnreserved c then [c] else List.flatten (List.map pctByte (utf8Bytes c))

def encodeURIComponent (l : List Char) : List Char :=
  List.flatten (List.map encodeChar l)

/-- The hex value of the character at index i, failing when the index is
out of range or the character is not a hex digit. -/
def hexValAt (l : List Char) (i : Nat) : Option Nat :=
  match l.get? i with
  | some c => hexVal c
  | none => none

/-- First phase of decodeURIComponent, fuel-based: replace each %XY
escape by the byte it denotes, failing on a malformed escape.  Fuel at
least the input length suffices. -/
def pctTokensF : Nat → List Char → Option (List (Sum Char Nat))
  | _, [] => some []
  | 0, _ :: _ => none
  | fuel + 1, c :: rest =>
    if c = pc then
      (hexValAt rest 0).bind fun x =>
        (hexValAt rest 1).bind fun y =>
          (pctTokensF fuel (rest.drop 2)).map fun ts => Sum.inr (16 * x + y) :: ts
    else
      (pctTokensF fuel rest).map fun ts => Sum.inl c :: ts

def pctTokens (l : List Char) : Option (List (Sum Char Nat)) :=
  pctTokensF l.length l

/-- The escaped byte at index i of the token list, when it is a UTF-8
continuation byte (128..191); failure otherwise (also when the unit at i
is a literal character or missing). -/
def contAt (us : List (Sum Char Nat)) (i : Nat) : Option Nat :=
  match us.get? i with
  | some (Sum.inr b) => if 128 ≤ b ∧ b < 192 then some b else none
  | _ => none

/-- Second phase of decodeURIComponent, fuel-based: escaped bytes must
form valid UTF-8 sequences (no stray continuations, no overlong forms,
no surrogates, no values beyond U+10FFFF); literal characters pass
through.  Each decoded character consumes one unit of fuel, so fuel at
least the list length suffices. -/
def decodeUnitsF : Nat → List (Sum Char Nat) → Option (List Char)
  | _, [] => some []
  | 0, _ :: _ => none
  | fuel + 1, Sum.inl c :: rest => (decodeUnitsF fuel rest).map fun l => c :: l
  | fuel + 1, Sum.inr b :: rest =>
    if b < 128 then (decodeUnitsF fuel rest).map fun l => Char.ofNat b :: l
    else if b < 194 then none
    else if b < 224 then
      (contAt rest 0).bind fun b2 =>
        (decodeUnitsF fuel (rest.drop 1)).map fun l =>
          Char.ofNat ((b - 192) * 64 + (b2 - 128)) :: l
    else if b < 240 then
      (contAt rest 0).bind fun b2 =>
        (contAt rest 1).bind fun b3 =>
          if 2048 ≤ (b - 224) * 4096 + (b2 - 128) * 64 + (b3 - 128) ∧
              ¬(55296 ≤ (b - 224) * 4096 + (b2 - 128) * 64 + (b3 - 128) ∧
                (b - 224) * 4096 + (b2 - 128) * 64 + (b3 - 128) < 57344) then
            (decodeUnitsF fuel (rest.drop 2)).map fun l =>
              Char.ofNat ((b - 224) * 4096 + (b2 - 128) * 64 + (b3 - 128)) :: l
          else none
    else if b < 245 then
      (contAt rest 0).bind fun b2 =>
        (contAt rest 1).bind fun b3 =>
          (contAt rest 2).bind fun b4 =>
            if 65536 ≤ (b - 240) * 262144 + (b2 - 128) * 4096 + (b3 - 128) * 64 +
                  (b4 - 128) ∧
                (b - 240) * 262144 + (b2 - 128) * 4096 + (b3 - 128) * 64 +
                  (b4 - 128) < 1114112 then
              (decodeUnitsF fuel (rest.drop 3)).map fun l =>
                Char.ofNat ((b - 240) * 262144 + (b2 - 128) * 4096 +
                  (b3 - 128) * 64 + (b4 - 128)) :: l
            else none
    else none

def decodeUnits (us : List (Sum Char Nat)) : Option (List Char) :=
  decodeUnitsF us.length us

def decodeURIComponent (l : List Char) : Option (List Char) :=
  match pctTokens l with
  | some ts => decodeUnits ts
  | none => none

/-- Proof-layer helper: the token list pctTokens recovers from the
encoding of one character. -/
def unitsOf (c : Char) : List (Sum Char Nat) :=
  if isUnreserved c then [Sum.inl c] else List.map Sum.inr (utf8Bytes c)

/-! ## Record types (Project.ts, Version.ts) -/

structure Version where
  hash : List Char
  timestamp : Int
deriving DecidableEq

structure Project where
  id : List Char
  data : List Char
  versions : List Version
deriving DecidableEq

/-! ## JSON.stringify for the Project schema -/

/-- JSON.stringify escaping for one character of a string value. -/
def escChar (c : Char) : List Char :=
  if c = qt then [bsl, qt]
  else if c = bsl then [bsl, bsl]
  else if c.toNat = 8 then [bsl, Char.ofNat 98]
  else if c.toNat = 9 then [bsl, Char.ofNat 116]
  else if c.toNat = 10 then [bsl, Char.ofNat 110]
  else if c.toNat = 12 then [bsl, Char.ofNat 102]
  else if c.toNat = 13 then [bsl, Char.ofNat 114]
  else if c.toNat < 32 then
    [bsl, Char.ofNat 117, Char.ofNat 48, Char.ofNat 48,
     hexLo (c.toNat / 16), hexLo (c.toNat % 16)]
  else [c]

/-- A JSON string literal: quote, escaped body, quote. -/
def jstr (s : List Char) : List Char :=
  qt :: List.flatten (List.map escChar s) ++ [qt]

def digitChar (n : Nat) : Char := Char.ofNat (48 + n)

def natToCharsF : Nat → Nat → List Char
  | 0, n => [digitChar (n % 10)]
  | fuel + 1, n =>
    if n < 10 then [digitChar n]
    else natToCharsF fuel (n / 10) ++ [digitChar (n % 10)]

/-- Decimal digits of a natural number, most significant first. -/
def natToChars (n : Nat) : List Char := natToCharsF n n

/-- JSON.stringify of an integer number. -/
def intToChars (i : Int) : List Char :=
  if i < 0 then mns :: natToChars i.natAbs else natToChars i.natAbs

/-- The characters of a JSON object key together with the colon. -/
def keyChars (s : List Char) : List Char := qt :: s ++ [qt, cln]

def stringifyVersion (v : Version) : List Char :=
  lbr :: (keyChars ['h', 'a', 's', 'h'] ++ jstr v.hash ++
    cma :: keyChars ['t', 'i', 'm', 'e', 's', 't', 'a', 'm', 'p'] ++
    intToChars v.timestamp ++ [rbr])

def stringifyVersionsTail : List Version → List Char
  | [] => []
  | [v] => stringifyVersion v
  | v :: rest => stringifyVersion v ++ cma :: stringifyVersionsTail rest

def stringifyVersions (vs : List Version) : List Char :=
  lbk :: stringifyVersionsTail vs ++ [rbk]

/-- JSON.stringify of a Project (fields in declaration order, as the JS
engine serializes them). -/
def stringifyProject (p : Project) : List Char :=
  lbr :: (keyChars ['i', 'd'] ++ jstr p.id ++
    cma :: keyChars ['d', 'a', 't', 'a'] ++ jstr p.data ++
    cma :: keyChars ['v', 'e', 'r', 's', 'i', 'o', 'n', 's'] ++
    stringifyVersions p.versions ++ [rbr])

/-! ## JSON.parse restricted to the Project schema -/

def isDigitChar (c : Char) : Bool := 48 ≤ c.toNat && c.toNat ≤ 57

def parseDigitsAux : List Char → Nat → Nat × List Char
  | [], acc => (acc, [])
  | c :: rest, acc =>
    if isDigitChar c then parseDigitsAux rest (10 * acc + (c.toNat - 48))
    else (acc, c :: rest)

def parseIntTok : List Char → Option (Int × List Char)
  | [] => none
  | c :: rest =>
    if c = mns then
      rest.head?.bind fun d =>
        if isDigitChar d then
          some (-(Int.ofNat (parseDigitsAux rest 0).1), (parseDigitsAux rest 0).2)
        else none
    else if isDigitChar c then
      some (Int.ofNat (parseDigitsAux (c :: rest) 0).1, (parseDigitsAux (c :: rest) 0).2)
    else none

/-- Decode one escape sequence after a backslash: the denoted character
and the number of input characters the escape body consumes. -/
def escDecode (l : List Char) : Option (Char × Nat) :=
  match l.get? 0 with
  | none => none
  | some e =>
    if e = qt then some (qt, 1)
    else if e = bsl then some (bsl, 1)
    else if e.toNat = 98 then some (Char.ofNat 8, 1)
    else if e.toNat = 116 then some (Char.ofNat 9, 1)
    else if e.toNat = 110 then some (Char.ofNat 10, 1)
    else if e.toNat = 102 then some (Char.ofNat 12, 1)
    else if e.toNat = 114 then some (Char.ofNat 13, 1)
    else if e.toNat = 117 then
      match l.get? 1, l.get? 2 with
      | some z1, some z2 =>
        if z1.toNat = 48 ∧ z2.toNat = 48 then
          (hexValAt l 3).bind fun x =>
            (hexValAt l 4).bind fun y => some (Char.ofNat (16 * x + y), 5)
        else none
      | _, _ => none
    else none

/-- Parse the body of a JSON string literal (fuel-based), the opening
quote already consumed; returns the unescaped value and the input after
the closing quote.  Fuel at least the input length suffices. -/
def parseStrBodyF : Nat → List Char → Option (List Char × List Char)
  | _, [] => none
  | 0, _ :: _ => none
  | fuel + 1, c :: rest =>
    if c = qt then some ([], rest)
    else if c = bsl then
      (escDecode rest).bind fun ek =>
        (parseStrBodyF fuel (rest.drop ek.2)).map fun sr => (ek.1 :: sr.1, sr.2)
    else
      (parseStrBodyF fuel rest).map fun sr => (c :: sr.1, sr.2)

def parseStrBody (l : List Char) : Option (List Char × List Char) :=
  parseStrBodyF l.length l

/-- Expect a closing brace and return the remaining input. -/
def expectRbr : List Char → Option (List Char)
  | c :: l => if c = rbr then some l else none
  | [] => none

def parseVersionTok (l : List Char) : Option (Version × List Char) :=
  (expectLit (lbr :: keyChars ['h', 'a', 's', 'h'] ++ [qt]) l).bind fun l1 =>
  (parseStrBody l1).bind fun hl =>
  (expectLit (cma :: keyChars ['t', 'i', 'm', 'e', 's', 't', 'a', 'm', 'p']) hl.2).bind fun l3 =>
  (parseIntTok l3).bind fun tl =>
  (expectRbr tl.2).bind fun l5 =>
  some (⟨hl.1, tl.1⟩, l5)

def parseVersionsAux : Nat → List Char → Option (List Version × List Char)
  | 0, _ => none
  | fuel + 1, l =>
    (parseVersionTok l).bind fun vl =>
      vl.2.head?.bind fun c =>
        if c = cma then
          (parseVersionsAux fuel vl.2.tail).map fun vsr => (vl.1 :: vsr.1, vsr.2)
        else if c = rbk then some ([vl.1], vl.2.tail)
        else none

/-- Parse a JSON array of versions, the opening bracket already
consumed; returns the versions and the input after the closing
bracket. -/
def parseVersions (fuel : Nat) (l : List Char) : Option (List Version × List Char) :=
  l.head?.bind fun c =>
    if c = rbk then some ([], l.tail) else parseVersionsAux fuel l

def parseProjectTok (l : List Char) : Option (Project × List Char) :=
  (expectLit (lbr :: keyChars ['i', 'd'] ++ [qt]) l).bind fun l1 =>
  (parseStrBody l1).bind fun il =>
  (expectLit (cma :: keyChars ['d', 'a', 't', 'a'] ++ [qt]) il.2).bind fun l3 =>
  (parseStrBody l3).bind fun dl =>
  (expectLit (cma :: keyChars ['v', 'e', 'r', 's', 'i', 'o', 'n', 's'] ++ [lbk]) dl.2).bind fun l5 =>
  (parseVersions l5.length l5).bind fun vl =>
  (expectRbr vl.2).bind fun l7 =>
  some (⟨il.1, dl.1, vl.1⟩, l7)

/-- JSON.parse restricted to the Project schema: succeeds exactly on the
canonical serialization of a Project, consuming the whole input. -/
def parseProject (l : List Char) : Option Project :=
  match parseProjectTok l with
  | some (p, []) => some p
  | _ => none

/-! ## Cookie medium (document.cookie) -/

/-- One cookie rendered as the getter renders it. -/
def rowOf (nv : List Char × List Char) : List Char := nv.1 ++ eqc :: nv.2

/-- The document.cookie getter: all cookies joined by a semicolon and a
space. -/
def cookieString : List (List Char × List Char) → List Char
  | [] => []
  | [nv] => rowOf nv
  | nv :: rest => rowOf nv ++ sc :: sp :: cookieString rest

/-- Replace the first cookie with the given name, or append a new one:
the browser keeps a cookie's position when its value is updated. -/
def updateEntry : List (List Char × List Char) → List Char → List Char →
    List (List Char × List Char)
  | [], n, v => [(n, v)]
  | nv :: rest, n, v =>
    if nv.1 = n then (n, v) :: rest else nv :: updateEntry rest n v

/-- The document.cookie setter: the cookie-pair is the text before the
first semicolon, its name the text before the first equals sign. -/
def cookieSet (jar : List (List Char × List Char)) (s : List Char) :
    List (List Char × List Char) :=
  updateEntry jar
    ((s.takeWhile (fun c => !(c == sc))).takeWhile (fun c => !(c == eqc)))
    ((s.takeWhile (fun c => !(c == sc))).dropWhile (fun c => !(c == eqc))).tail

/-! ## Backend operations (CookieStorage, UriStorage) -/

inductive JsError
  | err
deriving DecidableEq

/-- The rows CookieStorage.load and listAll see: document.cookie split
on the two-character separator. -/
def cookieRows (jar : List (List Char × List Char)) : List (List Char) :=
  jsSplit sc [sp] (cookieString jar)

/-- row.split that takes index 1, shared by both backends. -/
def entryValue (row : List Char) : Option (List Char) :=
  (jsSplit eqc [] row).get? 1

/-- JSON.parse of the percent-decoded value of a key=value row.  Failure
stands for the JS exception thrown inside the try block (missing value,
malformed escape, unparsable JSON). -/
def decodeEntry (row : List Char) : Option Project :=
  (entryValue row).bind fun v => (decodeURIComponent v).bind fun s => parseProject s

def cookieLoadBody (jar : List (List Char × List Char)) (id : List Char) :
    Except JsError (Option Project) :=
  match (cookieRows jar).find? (fun r => startsWith id r) with
  | none => Except.ok none
  | some row =>
    match decodeEntry row with
    | some p => Except.ok (some p)
    | none => Except.error JsError.err

/-- CookieStorage.load as the caller sees it: the try/catch returns null
on any error. -/
def cookieLoadOp (jar : List (List Char × List Char)) (id : List Char) :
    Except JsError (Option Project) :=
  match cookieLoadBody jar id with
  | Except.ok r => Except.ok r
  | Except.error _ => Except.ok none

def cookieLoad (jar : List (List Char × List Char)) (id : List Char) :
    Option Project :=
  match cookieLoadOp jar id with
  | Except.ok r => r
  | Except.error _ => none

def decodeAllRows : List (List Char) → Option (List Project)
  | [] => some []
  | r :: rs =>
    (decodeEntry r).bind fun p => (decodeAllRows rs).map fun ps => p :: ps

def cookieListAllBody (jar : List (List Char × List Char)) :
    Except JsError (List Project) :=
  match decodeAllRows (cookieRows jar) with
  | some ps => Except.ok ps
  | none => Except.error JsError.err

/-- CookieStorage.listAll as the caller sees it: the try/catch returns
the empty list on any error. -/
def cookieListAllOp (jar : List (List Char × List Char)) :
    Except JsError (List Project) :=
  match cookieListAllBody jar with
  | Except.ok ps => Except.ok ps
  | Except.error _ => Except.ok []

def cookieListAll (jar : List (List Char × List Char)) : List Project :=
  match cookieListAllOp jar with
  | Except.ok ps => ps
  | Except.error _ => []

def cookieSaveBody (jar : List (List Char × List Char)) (p : Project) :
    Except JsError (List (List Char × List Char)) :=
  Except.ok (cookieSet jar (p.id ++ eqc :: encodeURIComponent (stringifyProject p) ++ [sc]))

/-- CookieStorage.save: on an error the catch leaves the jar
unchanged. -/
def cookieSaveOp (jar : List (List Char × List Char)) (p : Project) :
    Except JsError (List (List Char × List Char)) :=
  match cookieSaveBody jar p with
  | Except.ok j => Except.ok j
  | Except.error _ => Except.ok jar

def cookieSave (jar : List (List Char × List Char)) (p : Project) :
    List (List Char × List Char) :=
  match cookieSaveOp jar p with
  | Except.ok j => j
  | Except.error _ => jar

/-- The rows UriStorage.load and listAll see: the fragment split on
ampersands. -/
def uriRows (frag : List Char) : List (List Char) :=
  jsSplit amp [] frag

def uriLoadBody (frag : List Char) (id : List Char) :
    Except JsError (Option Project) :=
  match (uriRows frag).find? (fun r => startsWith id r) with
  | none => Except.ok none
  | some row =>
    match decodeEntry row with
    | some p => Except.ok (some p)
    | none => Except.error JsError.err

def uriLoadOp (frag : List Char) (id : List Char) :
    Except JsError (Option Project) :=
  match uriLoadBody frag id with
  | Except.ok r => Except.ok r
  | Except.error _ => Except.ok none

def uriLoad (frag : List Char) (id : List Char) : Option Project :=
  match uriLoadOp frag id with
  | Except.ok r => r
  | Except.error _ => none

def uriListAllBody (frag : List Char) : Except JsError (List Project) :=
  match (uriRows frag).find? (fun r => hasChar eqc r) with
  | none => Except.ok []
  | some row =>
    match decodeEntry row with
    | some p => Except.ok [p]
    | none => Except.error JsError.err

def uriListAllOp (frag : List Char) : Except JsError (List Project) :=
  match uriListAllBody frag with
  | Except.ok ps => Except.ok ps
  | Except.error _ => Except.ok []

def uriListAll (frag : List Char) : List Project :=
  match uriListAllOp frag with
  | Except.ok ps => ps
  | Except.error _ => []

/-- UriStorage.save replaces the whole fragment with a single pair. -/
def uriSaveBody (frag : List Char) (p : Project) : Except JsError (List Char) :=
  Except.ok (p.id ++ eqc :: encodeURIComponent (stringifyProject p))

def uriSaveOp (frag : List Char) (p : Project) : Except JsError (List Char) :=
  match uriSaveBody frag p with
  | Except.ok f => Except.ok f
  | Except.error _ => Except.ok frag

def uriSave (frag : List Char) (p : Project) : List Char :=
  match uriSaveOp frag p with
  | Except.ok f => f
  | Except.error _ => frag

/-! ## Aggregator (StorageModule) -/

/-- A backend as the aggregator sees it during one aggregator call: its
medium is fixed, so load and listAll are functions of the id alone, and
save may throw (the aggregator catches). -/
structure BackendView where
  load : List Char → Option Project
  listAll : List Project
  save : Project → Except JsError Unit

/-- StorageModule.fetchProject: iterate the backends in order, return
the first truthy load result. -/
def fetchProject : List BackendView → List Char → Option Project
  | [], _ => none
  | b :: bs, id =>
    match b.load id with
    | some p => some p
    | none => fetchProject bs id

/-- StorageModule.listProjects: fold concatenation over the backends in
order. -/
def listProjects (bs : List BackendView) : List Project :=
  bs.foldl (fun acc b => acc ++ b.listAll) []

inductive SaveOutcome
  | completed
  | errorCaught
deriving DecidableEq

/-- What one iteration of StorageModule.saveProject's forEach does with
one backend: invoke save, catching any error. -/
def outcomeOf (b : BackendView) (p : Project) : SaveOutcome :=
  match b.save p with
  | Except.ok _ => SaveOutcome.completed
  | Except.error _ => SaveOutcome.errorCaught

/-- StorageModule.saveProject, observed as the trace of per-backend save
attempts in iteration order. -/
def saveProjectTrace : List BackendView → Project → List SaveOutcome
  | [], _ => []
  | b :: bs, p => outcomeOf b p :: saveProjectTrace bs p

/-- A CookieStorage instance over a fixed jar, as a backend view. -/
def cookieView (jar : List (List Char × List Char)) : BackendView :=
  ⟨cookieLoad jar, cookieListAll jar,
    fun p =>
      match cookieSaveBody jar p with
      | Except.ok _ => Except.ok ()
      | Except.error e => Except.error e⟩

/-- A UriStorage instance over a fixed fragment, as a backend view. -/
def uriView (frag : List Char) : BackendView :=
  ⟨uriLoad frag, uriListAll frag,
    fun p =>
      match uriSaveBody frag p with
      | Except.ok _ => Except.ok ()
      | Except.error e => Except.error e⟩

/-! ## Validity (spec section 3) -/

/-- A project id valid per the data-model invariant: non-empty and safe
to embed without encoding, no semicolon, equals sign or ampersand. -/
def validId (id : List Char) : Prop :=
  id ≠ [] ∧ sc ∉ id ∧ eqc ∉ id ∧ amp ∉ id

instance (id : List Char) : Decidable (validId id) := by
  unfold validId; infer_instance

/-- A cookie jar whose entries are representable as browser cookies: no
semicolon in names or values. -/
def jarWF (jar : List (List Char × List Char)) : Prop :=
  ∀ nv ∈ jar, sc ∉ nv.1 ∧ sc ∉ nv.2

instance (jar : List (List Char × List Char)) : Decidable (jarWF jar) := by
  unfold jarWF; infer_instance

/-! ## Concrete fixtures used by witnesses and counterexamples -/

def wProjA : Project := ⟨['a'], ['x'], [⟨['h'], 5⟩]⟩

def wProjB : Project := ⟨['b'], [], []⟩

def wProjAB : Project := ⟨['a', 'b'], [], []⟩

def cexJar : List (List Char × List Char) :=
  [(['a', 'b'], encodeURIComponent (stringifyProject wProjAB))]

def wJarA : List (List Char × List Char) :=
  [(['a'], encodeURIComponent (stringifyProject wProjA))]

def badJar : List (List Char × List Char) := [(['x'], ['n', 'o'])]

def badFrag : List Char := [pc, eqc]

def bvA : BackendView := ⟨fun _ => some wProjA, [wProjA], fun _ => Except.ok ()⟩

def bvB : BackendView := ⟨fun _ => some wProjB, [wProjB], fun _ => Except.ok ()⟩

def bvFail : BackendView := ⟨fun _ => none, [], fun _ => Except.error JsError.err⟩

/-! # Helper lemmas: characters -/

theorem toNat_ofNat_valid {n : Nat} (h : n.isValidChar) : (Char.ofNat n).toNat = n := by
  rw [Char.ofNat, dif_pos h]
  rfl

theorem toNat_ofNat_small {n : Nat} (h : n < 55296) : (Char.ofNat n).toNat = n :=
  toNat_ofNat_valid (Or.inl h)

theorem char_eq_of_toNat {a b : Char} (h : a.toNat = b.toNat) : a = b := by
  rw [← Char.ofNat_toNat a, h, Char.ofNat_toNat]

theorem char_toNat_valid (c : Char) :
    c.toNat < 55296 ∨ (57343 < c.toNat ∧ c.toNat < 1114112) := by
  rcases c.valid with h | ⟨h1, h2⟩
  · exact Or.inl h
  · exact Or.inr ⟨h1, h2⟩

theorem char_toNat_lt (c : Char) : c.toNat < 1114112 := by
  rcases char_toNat_valid c with h | ⟨_, h⟩ <;> omega

/-! # Helper lemmas: startsWith, takeWhile, dropWhile -/

theorem startsWith_append_self (a t : List Char) : startsWith a (a ++ t) = true := by
  induction a with
  | nil => rfl
  | cons c cs ih => simp [startsWith, ih]

theorem startsWith_iff_exists {a b : List Char} :
    startsWith a b = true ↔ ∃ t, b = a ++ t := by
  constructor
  · intro h
    induction a generalizing b with
    | nil => exact ⟨b, rfl⟩
    | cons c cs ih =>
      cases b with
      | nil => simp [startsWith] at h
      | cons d ds =>
        simp only [startsWith, Bool.and_eq_true, beq_iff_eq] at h
        obtain ⟨rfl, h2⟩ := h
        obtain ⟨t, rfl⟩ := ih h2
        exact ⟨t, rfl⟩
  · rintro ⟨t, rfl⟩
    exact startsWith_append_self a t

theorem startsWith_take {n : Nat} {l : List Char} : startsWith (l.take n) l = true :=
  startsWith_iff_exists.mpr ⟨l.drop n, (List.take_append_drop n l).symm⟩

theorem startsWith_cons_of_ne {c d : Char} {cs ds : List Char} (h : c ≠ d) :
    startsWith (c :: cs) (d :: ds) = false := by
  simp [startsWith, h]

theorem takeWhile_all_append {P : Char → Bool} {xs : List Char} {y : Char}
    {ys : List Char} (hxs : ∀ x ∈ xs, P x = true) (hy : P y = false) :
    (xs ++ y :: ys).takeWhile P = xs := by
  induction xs with
  | nil => simp [List.takeWhile_cons, hy]
  | cons a as ih =>
    have ha : P a = true := hxs a (by simp)
    simp [List.takeWhile_cons, ha, ih fun x hx => hxs x (by simp [hx])]

theorem dropWhile_all_append {P : Char → Bool} {xs : List Char} {y : Char}
    {ys : List Char} (hxs : ∀ x ∈ xs, P x = true) (hy : P y = false) :
    (xs ++ y :: ys).dropWhile P = y :: ys := by
  induction xs with
  | nil => simp [List.dropWhile_cons, hy]
  | cons a as ih =>
    have ha : P a = true := hxs a (by simp)
    simp [List.dropWhile_cons, ha, ih fun x hx => hxs x (by simp [hx])]

/-! # Helper lemmas: jsSplit -/

theorem jsSplitF_nil (s0 : Char) (srest : List Char) (fuel : Nat) :
    jsSplitF s0 srest fuel [] = [[]] := by
  cases fuel <;> rfl

theorem jsSplitF_fuel_eq (s0 : Char) (srest : List Char) :
    ∀ fuel l fuel2, l.length ≤ fuel → l.length ≤ fuel2 →
      jsSplitF s0 srest fuel l = jsSplitF s0 srest fuel2 l := by
  intro fuel
  induction fuel with
  | zero =>
    intro l fuel2 h1 _
    have : l = [] := List.length_eq_zero.mp (Nat.le_zero.mp h1)
    subst this
    rw [jsSplitF_nil, jsSplitF_nil]
  | succ f ih =>
    intro l fuel2 h1 h2
    cases l with
    | nil => rw [jsSplitF_nil, jsSplitF_nil]
    | cons c rest =>
      cases fuel2 with
      | zero => simp at h2
      | succ f2 =>
        simp only [List.length_cons, Nat.succ_le_succ_iff] at h1 h2
        simp only [jsSplitF]
        have hdrop : (List.drop srest.length rest).length ≤ f := by
          simp only [List.length_drop]
          omega
        have hdrop2 : (List.drop srest.length rest).length ≤ f2 := by
          simp only [List.length_drop]
          omega
        rw [ih (List.drop srest.length rest) f2 hdrop hdrop2, ih rest f2 h1 h2]

theorem jsSplit_cons_eq (s0 : Char) (srest : List Char) (c : Char) (rest : List Char) :
    jsSplit s0 srest (c :: rest) =
      (if startsWith (s0 :: srest) (c :: rest) = true then
        [] :: jsSplitF s0 srest rest.length (List.drop srest.length rest)
      else
        match jsSplitF s0 srest rest.length rest with
        | [] => [[c]]
        | t :: ts => (c :: t) :: ts) := by
  show jsSplitF s0 srest (c :: rest).length (c :: rest) = _
  simp only [List.length_cons, jsSplitF]

theorem jsSplit_nil (s0 : Char) (srest : List Char) : jsSplit s0 srest [] = [[]] :=
  jsSplitF_nil s0 srest 0

theorem jsSplit_no_s0 {s0 : Char} (srest : List Char) {l : List Char} (h : s0 ∉ l) :
    jsSplit s0 srest l = [l] := by
  induction l with
  | nil => exact jsSplit_nil s0 srest
  | cons c rest ih =>
    rw [jsSplit_cons_eq]
    have hne : s0 ≠ c := fun hh => h (hh ▸ List.mem_cons_self c rest)
    rw [startsWith_cons_of_ne hne]
    simp only [Bool.false_eq_true, if_false]
    have hrest : jsSplitF s0 srest rest.length rest = [rest] :=
      ih fun hm => h (List.mem_cons_of_mem c hm)
    rw [hrest]

theorem jsSplit_sep {s0 : Char} (srest : List Char) {part : List Char}
    (rest : List Char) (h : s0 ∉ part) :
    jsSplit s0 srest (part ++ (s0 :: srest) ++ rest) = part :: jsSplit s0 srest rest := by
  induction part with
  | nil =>
    simp only [List.nil_append, List.cons_append]
    rw [jsSplit_cons_eq]
    have hsw : startsWith (s0 :: srest) (s0 :: (srest ++ rest)) = true := by
      have := startsWith_append_self (s0 :: srest) rest
      simpa using this
    rw [hsw]
    simp only [if_true]
    rw [List.drop_left, jsSplitF_fuel_eq s0 srest (srest ++ rest).length rest rest.length
      (by simp) (Nat.le_refl _)]
    rfl
  | cons c part2 ih =>
    have hne : s0 ≠ c := fun hh => h (hh ▸ List.mem_cons_self c part2)
    simp only [List.cons_append]
    rw [jsSplit_cons_eq, startsWith_cons_of_ne hne]
    simp only [Bool.false_eq_true, if_false]
    have ih2 := ih fun hm => h (List.mem_cons_of_mem c hm)
    simp only [List.cons_append] at ih2
    have hfuel : jsSplitF s0 srest (part2 ++ (s0 :: srest) ++ rest).length
        (part2 ++ (s0 :: srest) ++ rest) = part2 :: jsSplit s0 srest rest := ih2
    have : jsSplitF s0 srest (part2 ++ s0 :: srest ++ rest).length
        (part2 ++ s0 :: srest ++ rest) = part2 :: jsSplit s0 srest rest := by
      simpa [List.append_assoc] using hfuel
    rw [this]

theorem jsSplitF_ne_nil (s0 : Char) (srest : List Char) (fuel : Nat) (l : List Char) :
    jsSplitF s0 srest fuel l ≠ [] := by
  match fuel, l with
  | fuel, [] => rw [jsSplitF_nil]; simp
  | 0, c :: rest => simp [jsSplitF]
  | fuel + 1, c :: rest =>
    simp only [jsSplitF]
    split
    · simp
    · split <;> simp

theorem jsSplit_ne_nil (s0 : Char) (srest : List Char) (l : List Char) :
    jsSplit s0 srest l ≠ [] :=
  jsSplitF_ne_nil s0 srest l.length l

/-! # Helper lemmas: percent-encoding -/

theorem hexVal_hexUp {n : Nat} (h : n < 16) : hexVal (hexUp n) = some n := by
  interval_cases n <;> decide

theorem hexVal_hexLo {n : Nat} (h : n < 16) : hexVal (hexLo n) = some n := by
  interval_cases n <;> decide

theorem utf8Bytes_lt {c : Char} : ∀ b ∈ utf8Bytes c, b < 256 := by
  intro b hb
  have hv := char_toNat_lt c
  simp only [utf8Bytes] at hb
  by_cases h1 : c.toNat < 128
  · simp [h1] at hb
    omega
  · by_cases h2 : c.toNat < 2048
    · simp [h1, h2] at hb
      rcases hb with rfl | rfl <;> omega
    · by_cases h3 : c.toNat < 65536
      · simp [h1, h2, h3] at hb
        rcases hb with rfl | rfl | rfl <;> omega
      · simp [h1, h2, h3] at hb
        rcases hb with rfl | rfl | rfl | rfl <;> omega

theorem mem_encodeURIComponent {l : List Char} {c2 : Char}
    (h : c2 ∈ encodeURIComponent l) :
    isUnreserved c2 = true ∨ c2 = pc ∨ ∃ n, n < 16 ∧ c2 = hexUp n := by
  unfold encodeURIComponent at h
  rw [List.mem_flatten] at h
  obtain ⟨enc, henc, hc⟩ := h
  rw [List.mem_map] at henc
  obtain ⟨c, _, rfl⟩ := henc
  unfold encodeChar at hc
  by_cases hu : isUnreserved c
  · rw [if_pos hu] at hc
    simp at hc
    subst hc
    exact Or.inl hu
  · rw [if_neg hu] at hc
    rw [List.mem_flatten] at hc
    obtain ⟨pce, hpce, hc2⟩ := hc
    rw [List.mem_map] at hpce
    obtain ⟨b, hb, rfl⟩ := hpce
    have hblt : b < 256 := utf8Bytes_lt b hb
    unfold pctByte at hc2
    simp at hc2
    rcases hc2 with rfl | rfl | rfl
    · exact Or.inr (Or.inl rfl)
    · exact Or.inr (Or.inr ⟨b / 16, by omega, rfl⟩)
    · exact Or.inr (Or.inr ⟨b % 16, by omega, rfl⟩)

theorem special_not_mem_encode {c2 : Char} (h1 : isUnreserved c2 = false)
    (h2 : c2 ≠ pc) (h3 : ∀ n, n < 16 → c2 ≠ hexUp n) (l : List Char) :
    c2 ∉ encodeURIComponent l := by
  intro hmem
  rcases mem_encodeURIComponent hmem with h | h | ⟨n, hn, heq⟩
  · rw [h1] at h
    exact Bool.false_ne_true h
  · exact h2 h
  · exact h3 n hn heq

theorem sc_not_mem_encode (l : List Char) : sc ∉ encodeURIComponent l :=
  special_not_mem_encode (by decide) (by decide) (by decide) l

theorem eqc_not_mem_encode (l : List Char) : eqc ∉ encodeURIComponent l :=
  special_not_mem_encode (by decide) (by decide) (by decide) l

theorem amp_not_mem_encode (l : List Char) : amp ∉ encodeURIComponent l :=
  special_not_mem_encode (by decide) (by decide) (by decide) l

theorem pctTokensF_nil (fuel : Nat) : pctTokensF fuel [] = some [] := by
  cases fuel <;> rfl

theorem pctTokensF_succ (fuel : Nat) (c : Char) (rest : List Char) :
    pctTokensF (fuel + 1) (c :: rest) =
      (if c = pc then
        (hexValAt rest 0).bind fun x =>
          (hexValAt rest 1).bind fun y =>
            (pctTokensF fuel (rest.drop 2)).map fun ts => Sum.inr (16 * x + y) :: ts
      else
        (pctTokensF fuel rest).map fun ts => Sum.inl c :: ts) := rfl

theorem pctTokensF_fuel_eq :
    ∀ fuel l fuel2, l.length ≤ fuel → l.length ≤ fuel2 →
      pctTokensF fuel l = pctTokensF fuel2 l := by
  intro fuel
  induction fuel with
  | zero =>
    intro l fuel2 h1 _
    have hl : l = [] := List.length_eq_zero.mp (Nat.le_zero.mp h1)
    subst hl
    rw [pctTokensF_nil, pctTokensF_nil]
  | succ f ih =>
    intro l fuel2 h1 h2
    cases l with
    | nil => rw [pctTokensF_nil, pctTokensF_nil]
    | cons c rest =>
      cases fuel2 with
      | zero => simp at h2
      | succ f2 =>
        simp only [List.length_cons, Nat.succ_le_succ_iff] at h1 h2
        have hd2 : (rest.drop 2).length ≤ f := by
          simp only [List.length_drop]; omega
        have hd2b : (rest.drop 2).length ≤ f2 := by
          simp only [List.length_drop]; omega
        rw [pctTokensF_succ, pctTokensF_succ]
        simp only [ih rest f2 h1 h2, ih (rest.drop 2) f2 hd2 hd2b]

theorem pctTokensF_pctBytes :
    ∀ fuel bs r, (∀ b ∈ bs, b < 256) →
      (List.flatten (List.map pctByte bs) ++ r).length ≤ fuel →
      pctTokensF fuel (List.flatten (List.map pctByte bs) ++ r) =
        (pctTokensF r.length r).map fun ts => List.map Sum.inr bs ++ ts := by
  intro fuel bs
  induction bs generalizing fuel with
  | nil =>
    intro r _ hlen
    simp only [List.map_nil, List.flatten_nil, List.nil_append] at hlen ⊢
    rw [pctTokensF_fuel_eq fuel r r.length hlen (Nat.le_refl _)]
    cases pctTokensF r.length r <;> rfl
  | cons b bs2 ih =>
    intro r hbs hlen
    have hb : b < 256 := hbs b (by simp)
    simp only [List.map_cons, List.flatten_cons, pctByte, List.cons_append,
      List.append_assoc, List.nil_append] at hlen ⊢
    cases fuel with
    | zero => simp at hlen
    | succ f =>
      rw [pctTokensF_succ, if_pos rfl]
      have hx : hexValAt (hexUp (b / 16) :: hexUp (b % 16) ::
          (List.flatten (List.map pctByte bs2) ++ r)) 0 = some (b / 16) := by
        simp only [hexValAt, List.get?]
        exact hexVal_hexUp (by omega)
      have hy : hexValAt (hexUp (b / 16) :: hexUp (b % 16) ::
          (List.flatten (List.map pctByte bs2) ++ r)) 1 = some (b % 16) := by
        simp only [hexValAt, List.get?]
        exact hexVal_hexUp (by omega)
      rw [hx]
      simp only [Option.some_bind]
      rw [hy]
      simp only [Option.some_bind, List.drop_succ_cons, List.drop_zero]
      simp only [List.length_cons] at hlen
      rw [ih f r (fun x hx2 => hbs x (by simp [hx2])) (by omega)]
      have harith : 16 * (b / 16) + b % 16 = b := by omega
      rw [harith]
      cases pctTokensF r.length r <;> rfl

theorem pctTokens_encodeChar (c : Char) (r : List Char) :
    pctTokens (encodeChar c ++ r) =
      (pctTokens r).map fun ts => unitsOf c ++ ts := by
  unfold encodeChar unitsOf
  by_cases hu : isUnreserved c
  · rw [if_pos hu, if_pos hu]
    have hcpc : ¬ c = pc := by
      intro h
      subst h
      exact absurd hu (by decide)
    show pctTokensF ([c] ++ r).length ([c] ++ r) = _
    simp only [List.cons_append, List.nil_append, List.length_cons]
    rw [pctTokensF_succ, if_neg hcpc]
    unfold pctTokens
    cases pctTokensF r.length r <;> rfl
  · rw [if_neg hu, if_neg hu]
    show pctTokensF (List.flatten (List.map pctByte (utf8Bytes c)) ++ r).length _ = _
    rw [pctTokensF_pctBytes _ (utf8Bytes c) r (fun b hb => utf8Bytes_lt b hb)
      (Nat.le_refl _)]
    rfl

theorem pctTokens_encode (l : List Char) (r : List Char) :
    pctTokens (encodeURIComponent l ++ r) =
      (pctTokens r).map fun ts => List.flatten (List.map unitsOf l) ++ ts := by
  induction l with
  | nil =>
    simp only [encodeURIComponent, List.map_nil, List.flatten_nil, List.nil_append]
    cases pctTokens r <;> rfl
  | cons c rest ih =>
    have hstep : encodeURIComponent (c :: rest) =
        encodeChar c ++ encodeURIComponent rest := by
      simp [encodeURIComponent]
    rw [hstep, List.append_assoc, pctTokens_encodeChar, ih, List.map_cons,
      List.flatten_cons]
    cases pctTokens r <;> simp [List.append_assoc]

theorem decodeUnitsF_nil (fuel : Nat) : decodeUnitsF fuel [] = some [] := by
  cases fuel <;> rfl

theorem decodeUnitsF_succ_inl (fuel : Nat) (c : Char) (rest : List (Sum Char Nat)) :
    decodeUnitsF (fuel + 1) (Sum.inl c :: rest) =
      (decodeUnitsF fuel rest).map fun l => c :: l := rfl

theorem decodeUnitsF_succ_inr (fuel : Nat) (b : Nat) (rest : List (Sum Char Nat)) :
    decodeUnitsF (fuel + 1) (Sum.inr b :: rest) =
      (if b < 128 then (decodeUnitsF fuel rest).map fun l => Char.ofNat b :: l
      else if b < 194 then none
      else if b < 224 then
        (contAt rest 0).bind fun b2 =>
          (decodeUnitsF fuel (rest.drop 1)).map fun l =>
            Char.ofNat ((b - 192) * 64 + (b2 - 128)) :: l
      else if b < 240 then
        (contAt rest 0).bind fun b2 =>
          (contAt rest 1).bind fun b3 =>
            if 2048 ≤ (b - 224) * 4096 + (b2 - 128) * 64 + (b3 - 128) ∧
                ¬(55296 ≤ (b - 224) * 4096 + (b2 - 128) * 64 + (b3 - 128) ∧
                  (b - 224) * 4096 + (b2 - 128) * 64 + (b3 - 128) < 57344) then
              (decodeUnitsF fuel (rest.drop 2)).map fun l =>
                Char.ofNat ((b - 224) * 4096 + (b2 - 128) * 64 + (b3 - 128)) :: l
            else none
      else if b < 245 then
        (contAt rest 0).bind fun b2 =>
          (contAt rest 1).bind fun b3 =>
            (contAt rest 2).bind fun b4 =>
              if 65536 ≤ (b - 240) * 262144 + (b2 - 128) * 4096 + (b3 - 128) * 64 +
                    (b4 - 128) ∧
                  (b - 240) * 262144 + (b2 - 128) * 4096 + (b3 - 128) * 64 +
                    (b4 - 128) < 1114112 then
                (decodeUnitsF fuel (rest.drop 3)).map fun l =>
                  Char.ofNat ((b - 240) * 262144 + (b2 - 128) * 4096 +
                    (b3 - 128) * 64 + (b4 - 128)) :: l
              else none
      else none) := rfl

theorem decodeUnitsF_fuel_eq :
    ∀ fuel l fuel2, l.length ≤ fuel → l.length ≤ fuel2 →
      decodeUnitsF fuel l = decodeUnitsF fuel2 l := by
  intro fuel
  induction fuel with
  | zero =>
    intro l fuel2 h1 _
    have hl : l = [] := List.length_eq_zero.mp (Nat.le_zero.mp h1)
    subst hl
    rw [decodeUnitsF_nil, decodeUnitsF_nil]
  | succ f ih =>
    intro l fuel2 h1 h2
    cases l with
    | nil => rw [decodeUnitsF_nil, decodeUnitsF_nil]
    | cons u us2 =>
      cases fuel2 with
      | zero => simp at h2
      | succ f2 =>
        simp only [List.length_cons, Nat.succ_le_succ_iff] at h1 h2
        have hd1 : (us2.drop 1).length ≤ f := by
          simp only [List.length_drop]; omega
        have hd1b : (us2.drop 1).length ≤ f2 := by
          simp only [List.length_drop]; omega
        have hd2 : (us2.drop 2).length ≤ f := by
          simp only [List.length_drop]; omega
        have hd2b : (us2.drop 2).length ≤ f2 := by
          simp only [List.length_drop]; omega
        have hd3 : (us2.drop 3).length ≤ f := by
          simp only [List.length_drop]; omega
        have hd3b : (us2.drop 3).length ≤ f2 := by
          simp only [List.length_drop]; omega
        cases u with
        | inl c =>
          rw [decodeUnitsF_succ_inl, decodeUnitsF_succ_inl, ih us2 f2 h1 h2]
        | inr b =>
          rw [decodeUnitsF_succ_inr, decodeUnitsF_succ_inr]
          simp only [ih us2 f2 h1 h2, ih (us2.drop 1) f2 hd1 hd1b,
            ih (us2.drop 2) f2 hd2 hd2b, ih (us2.drop 3) f2 hd3 hd3b]

theorem decodeUnits_cons_inl (c : Char) (us : List (Sum Char Nat)) :
    decodeUnits (Sum.inl c :: us) = (decodeUnits us).map fun l => c :: l := by
  show decodeUnitsF (us.length + 1) (Sum.inl c :: us) = _
  rw [decodeUnitsF_succ_inl]
  rfl

theorem decodeUnits_unitsOf (c : Char) (us : List (Sum Char Nat)) :
    decodeUnits (unitsOf c ++ us) = (decodeUnits us).map fun l => c :: l := by
  unfold unitsOf
  by_cases hu : isUnreserved c
  · rw [if_pos hu]
    simp only [List.cons_append, List.nil_append]
    exact decodeUnits_cons_inl c us
  · rw [if_neg hu]
    simp only [utf8Bytes]
    by_cases h1 : c.toNat < 128
    · rw [if_pos h1]
      simp only [List.map_cons, List.map_nil, List.cons_append, List.nil_append]
      show decodeUnitsF (us.length + 1) (Sum.inr c.toNat :: us) = _
      rw [decodeUnitsF_succ_inr, if_pos h1, Char.ofNat_toNat]
      rfl
    · rw [if_neg h1]
      by_cases h2 : c.toNat < 2048
      · rw [if_pos h2]
        simp only [List.map_cons, List.map_nil, List.cons_append, List.nil_append,
          List.length_cons]
        show decodeUnitsF (us.length + 1 + 1)
          (Sum.inr (192 + c.toNat / 64) :: Sum.inr (128 + c.toNat % 64) :: us) = _
        rw [decodeUnitsF_succ_inr]
        rw [if_neg (by omega : ¬ 192 + c.toNat / 64 < 128),
          if_neg (by omega : ¬ 192 + c.toNat / 64 < 194),
          if_pos (by omega : 192 + c.toNat / 64 < 224)]
        have hcont : contAt (Sum.inr (128 + c.toNat % 64) :: us) 0 =
            some (128 + c.toNat % 64) := by
          simp only [contAt, List.get?]
          rw [if_pos (by omega : 128 ≤ 128 + c.toNat % 64 ∧ 128 + c.toNat % 64 < 192)]
        rw [hcont]
        simp only [Option.some_bind, List.drop_succ_cons, List.drop_zero]
        rw [decodeUnitsF_fuel_eq (us.length + 1) us us.length (by omega) (Nat.le_refl _)]
        have harith : (192 + c.toNat / 64 - 192) * 64 + (128 + c.toNat % 64 - 128) =
            c.toNat := by omega
        rw [harith, Char.ofNat_toNat]
        rfl
      · rw [if_neg h2]
        by_cases h3 : c.toNat < 65536
        · rw [if_pos h3]
          have hsur := char_toNat_valid c
          simp only [List.map_cons, List.map_nil, List.cons_append, List.nil_append,
            List.length_cons]
          show decodeUnitsF (us.length + 1 + 1 + 1)
            (Sum.inr (224 + c.toNat / 4096) :: Sum.inr (128 + c.toNat / 64 % 64) ::
              Sum.inr (128 + c.toNat % 64) :: us) = _
          rw [decodeUnitsF_succ_inr]
          rw [if_neg (by omega : ¬ 224 + c.toNat / 4096 < 128),
            if_neg (by omega : ¬ 224 + c.toNat / 4096 < 194),
            if_neg (by omega : ¬ 224 + c.toNat / 4096 < 224),
            if_pos (by omega : 224 + c.toNat / 4096 < 240)]
          have hcont0 : contAt (Sum.inr (128 + c.toNat / 64 % 64) ::
              Sum.inr (128 + c.toNat % 64) :: us) 0 = some (128 + c.toNat / 64 % 64) := by
            simp only [contAt, List.get?]
            rw [if_pos (by omega : 128 ≤ 128 + c.toNat / 64 % 64 ∧
              128 + c.toNat / 64 % 64 < 192)]
          have hcont1 : contAt (Sum.inr (128 + c.toNat / 64 % 64) ::
              Sum.inr (128 + c.toNat % 64) :: us) 1 = some (128 + c.toNat % 64) := by
            simp only [contAt, List.get?]
            rw [if_pos (by omega : 128 ≤ 128 + c.toNat % 64 ∧ 128 + c.toNat % 64 < 192)]
          rw [hcont0]
          simp only [Option.some_bind]
          rw [hcont1]
          simp only [Option.some_bind]
          have harith : (224 + c.toNat / 4096 - 224) * 4096 +
              (128 + c.toNat / 64 % 64 - 128) * 64 + (128 + c.toNat % 64 - 128) =
              c.toNat := by omega
          rw [harith]
          rw [if_pos (by omega : 2048 ≤ c.toNat ∧ ¬(55296 ≤ c.toNat ∧ c.toNat < 57344))]
          simp only [List.drop_succ_cons, List.drop_zero]
          rw [decodeUnitsF_fuel_eq (us.length + 1 + 1) us us.length (by omega)
            (Nat.le_refl _), Char.ofNat_toNat]
          rfl
        · rw [if_neg h3]
          have h4 : c.toNat < 1114112 := char_toNat_lt c
          simp only [List.map_cons, List.map_nil, List.cons_append, List.nil_append,
            List.length_cons]
          show decodeUnitsF (us.length + 1 + 1 + 1 + 1)
            (Sum.inr (240 + c.toNat / 262144) :: Sum.inr (128 + c.toNat / 4096 % 64) ::
              Sum.inr (128 + c.toNat / 64 % 64) :: Sum.inr (128 + c.toNat % 64) :: us) = _
          rw [decodeUnitsF_succ_inr]
          rw [if_neg (by omega : ¬ 240 + c.toNat / 262144 < 128),
            if_neg (by omega : ¬ 240 + c.toNat / 262144 < 194),
            if_neg (by omega : ¬ 240 + c.toNat / 262144 < 224),
            if_neg (by omega : ¬ 240 + c.toNat / 262144 < 240),
            if_pos (by omega : 240 + c.toNat / 262144 < 245)]
          have hcont0 : contAt (Sum.inr (128 + c.toNat / 4096 % 64) ::
              Sum.inr (128 + c.toNat / 64 % 64) :: Sum.inr (128 + c.toNat % 64) :: us) 0 =
              some (128 + c.toNat / 4096 % 64) := by
            simp only [contAt, List.get?]
            rw [if_pos (by omega : 128 ≤ 128 + c.toNat / 4096 % 64 ∧
              128 + c.toNat / 4096 % 64 < 192)]
          have hcont1 : contAt (Sum.inr (128 + c.toNat / 4096 % 64) ::
              Sum.inr (128 + c.toNat / 64 % 64) :: Sum.inr (128 + c.toNat % 64) :: us) 1 =
              some (128 + c.toNat / 64 % 64) := by
            simp only [contAt, List.get?]
            rw [if_pos (by omega : 128 ≤ 128 + c.toNat / 64 % 64 ∧
              128 + c.toNat / 64 % 64 < 192)]
          have hcont2 : contAt (Sum.inr (128 + c.toNat / 4096 % 64) ::
              Sum.inr (128 + c.toNat / 64 % 64) :: Sum.inr (128 + c.toNat % 64) :: us) 2 =
              some (128 + c.toNat % 64) := by
            simp only [contAt, List.get?]
            rw [if_pos (by omega : 128 ≤ 128 + c.toNat % 64 ∧ 128 + c.toNat % 64 < 192)]
          rw [hcont0]
          simp only [Option.some_bind]
          rw [hcont1]
          simp only [Option.some_bind]
          rw [hcont2]
          simp only [Option.some_bind]
          have harith : (240 + c.toNat / 262144 - 240) * 262144 +
              (128 + c.toNat / 4096 % 64 - 128) * 4096 +
              (128 + c.toNat / 64 % 64 - 128) * 64 + (128 + c.toNat % 64 - 128) =
              c.toNat := by omega
          rw [harith]
          rw [if_pos (by omega : 65536 ≤ c.toNat ∧ c.toNat < 1114112)]
          simp only [List.drop_succ_cons, List.drop_zero]
          rw [decodeUnitsF_fuel_eq (us.length + 1 + 1 + 1) us us.length (by omega)
            (Nat.le_refl _), Char.ofNat_toNat]
          rfl

theorem decodeUnits_flatten (l : List Char) (us : List (Sum Char Nat)) :
    decodeUnits (List.flatten (List.map unitsOf l) ++ us) =
      (decodeUnits us).map fun s => l ++ s := by
  induction l with
  | nil =>
    simp only [List.map_nil, List.flatten_nil, List.nil_append]
    cases decodeUnits us <;> rfl
  | cons c rest ih =>
    simp only [List.map_cons, List.flatten_cons, List.append_assoc]
    rw [decodeUnits_unitsOf, ih]
    cases decodeUnits us <;> rfl

/-- decodeURIComponent is a left inverse of encodeURIComponent. -/
theorem decode_encode (l : List Char) :
    decodeURIComponent (encodeURIComponent l) = some l := by
  unfold decodeURIComponent
  have h1 : pctTokens (encodeURIComponent l ++ []) =
      (pctTokens []).map fun ts => List.flatten (List.map unitsOf l) ++ ts :=
    pctTokens_encode l []
  simp only [List.append_nil] at h1
  rw [h1]
  show decodeUnits (List.flatten (List.map unitsOf l) ++ []) = some l
  rw [decodeUnits_flatten l []]
  show some (l ++ []) = some l
  rw [List.append_nil]

/-! # Helper lemmas: JSON string escaping -/

theorem parseStrBodyF_succ (fuel : Nat) (c : Char) (rest : List Char) :
    parseStrBodyF (fuel + 1) (c :: rest) =
      (if c = qt then some ([], rest)
      else if c = bsl then
        (escDecode rest).bind fun ek =>
          (parseStrBodyF fuel (rest.drop ek.2)).map fun sr => (ek.1 :: sr.1, sr.2)
      else
        (parseStrBodyF fuel rest).map fun sr => (c :: sr.1, sr.2)) := rfl

theorem escChar_cases (c : Char) :
    (escChar c = [c] ∧ c ≠ qt ∧ c ≠ bsl) ∨
    (∃ body, escChar c = bsl :: body ∧
      ∀ tail, escDecode (body ++ tail) = some (c, body.length)) := by
  unfold escChar
  by_cases h1 : c = qt
  · subst h1
    rw [if_pos rfl]
    refine Or.inr ⟨[qt], rfl, fun tail => ?_⟩
    simp [escDecode]
  · rw [if_neg h1]
    by_cases h2 : c = bsl
    · subst h2
      rw [if_pos rfl]
      refine Or.inr ⟨[bsl], rfl, fun tail => ?_⟩
      simp [escDecode]
      exact fun h => h.symm
    · rw [if_neg h2]
      by_cases h3 : c.toNat = 8
      · rw [if_pos h3]
        refine Or.inr ⟨[Char.ofNat 98], rfl, fun tail => ?_⟩
        have hc : Char.ofNat 8 = c := char_eq_of_toNat (by rw [toNat_ofNat_small] <;> omega)
        have ht : (Char.ofNat 98).toNat = 98 := by decide
        simp only [escDecode, List.cons_append, List.get?, ht]
        rw [if_neg (by decide : ¬ Char.ofNat 98 = qt),
          if_neg (by decide : ¬ Char.ofNat 98 = bsl)]
        simp
        exact hc
      · rw [if_neg h3]
        by_cases h4 : c.toNat = 9
        · rw [if_pos h4]
          refine Or.inr ⟨[Char.ofNat 116], rfl, fun tail => ?_⟩
          have hc : Char.ofNat 9 = c := char_eq_of_toNat (by rw [toNat_ofNat_small] <;> omega)
          have ht : (Char.ofNat 116).toNat = 116 := by decide
          simp only [escDecode, List.cons_append, List.get?, ht]
          rw [if_neg (by decide : ¬ Char.ofNat 116 = qt),
            if_neg (by decide : ¬ Char.ofNat 116 = bsl)]
          simp
          exact hc
        · rw [if_neg h4]
          by_cases h5 : c.toNat = 10
          · rw [if_pos h5]
            refine Or.inr ⟨[Char.ofNat 110], rfl, fun tail => ?_⟩
            have hc : Char.ofNat 10 = c :=
              char_eq_of_toNat (by rw [toNat_ofNat_small] <;> omega)
            have ht : (Char.ofNat 110).toNat = 110 := by decide
            simp only [escDecode, List.cons_append, List.get?, ht]
            rw [if_neg (by decide : ¬ Char.ofNat 110 = qt),
              if_neg (by decide : ¬ Char.ofNat 110 = bsl)]
            simp
            exact hc
          · rw [if_neg h5]
            by_cases h6 : c.toNat = 12
            · rw [if_pos h6]
              refine Or.inr ⟨[Char.ofNat 102], rfl, fun tail => ?_⟩
              have hc : Char.ofNat 12 = c :=
                char_eq_of_toNat (by rw [toNat_ofNat_small] <;> omega)
              have ht : (Char.ofNat 102).toNat = 102 := by decide
              simp only [escDecode, List.cons_append, List.get?, ht]
              rw [if_neg (by decide : ¬ Char.ofNat 102 = qt),
                if_neg (by decide : ¬ Char.ofNat 102 = bsl)]
              simp
              exact hc
            · rw [if_neg h6]
              by_cases h7 : c.toNat = 13
              · rw [if_pos h7]
                refine Or.inr ⟨[Char.ofNat 114], rfl, fun tail => ?_⟩
                have hc : Char.ofNat 13 = c :=
                  char_eq_of_toNat (by rw [toNat_ofNat_small] <;> omega)
                have ht : (Char.ofNat 114).toNat = 114 := by decide
                simp only [escDecode, List.cons_append, List.get?, ht]
                rw [if_neg (by decide : ¬ Char.ofNat 114 = qt),
                  if_neg (by decide : ¬ Char.ofNat 114 = bsl)]
                simp
                exact hc
              · rw [if_neg h7]
                by_cases h8 : c.toNat < 32
                · rw [if_pos h8]
                  refine Or.inr ⟨[Char.ofNat 117, Char.ofNat 48, Char.ofNat 48,
                    hexLo (c.toNat / 16), hexLo (c.toNat % 16)], rfl, fun tail => ?_⟩
                  have hx : hexVal (hexLo (c.toNat / 16)) = some (c.toNat / 16) :=
                    hexVal_hexLo (by omega)
                  have hy : hexVal (hexLo (c.toNat % 16)) = some (c.toNat % 16) :=
                    hexVal_hexLo (by omega)
                  have hc : Char.ofNat (16 * (c.toNat / 16) + c.toNat % 16) = c :=
                    char_eq_of_toNat (by rw [toNat_ofNat_small] <;> omega)
                  simp [escDecode, hexValAt, List.get?, hx, hy, hc]
                  rw [if_neg (by decide : ¬ Char.ofNat 117 = qt),
                    if_neg (by decide : ¬ Char.ofNat 117 = bsl)]
                · rw [if_neg h8]
                  exact Or.inl ⟨rfl, h1, h2⟩

theorem parseStrBodyF_esc :
    ∀ s fuel r, (List.flatten (List.map escChar s) ++ qt :: r).length ≤ fuel →
      parseStrBodyF fuel (List.flatten (List.map escChar s) ++ qt :: r) = some (s, r) := by
  intro s
  induction s with
  | nil =>
    intro fuel r hlen
    simp only [List.map_nil, List.flatten_nil, List.nil_append, List.length_cons] at hlen ⊢
    cases fuel with
    | zero => omega
    | succ f => rw [parseStrBodyF_succ, if_pos rfl]
  | cons c s2 ih =>
    intro fuel r hlen
    rcases escChar_cases c with ⟨hlit, hq, hb⟩ | ⟨body, hencode, hdecode⟩
    · simp only [List.map_cons, List.flatten_cons, hlit, List.cons_append,
        List.nil_append, List.length_cons] at hlen ⊢
      cases fuel with
      | zero => omega
      | succ f =>
        rw [parseStrBodyF_succ, if_neg hq, if_neg hb,
          ih f r (by simp at hlen ⊢; omega)]
        rfl
    · simp only [List.map_cons, List.flatten_cons, hencode, List.cons_append,
        List.nil_append, List.append_assoc, List.length_cons] at hlen ⊢
      cases fuel with
      | zero => omega
      | succ f =>
        have hbq : ¬ bsl = qt := by decide
        rw [parseStrBodyF_succ, if_neg hbq, if_pos rfl, hdecode]
        simp only [Option.some_bind, List.drop_left]
        rw [ih f r (by simp [List.length_append] at hlen ⊢; omega)]
        rfl

theorem parseStrBody_esc (s : List Char) (r : List Char) :
    parseStrBody (List.flatten (List.map escChar s) ++ qt :: r) = some (s, r) :=
  parseStrBodyF_esc s _ r (Nat.le_refl _)

/-! # Helper lemmas: decimal numbers -/

theorem toNat_digitChar {m : Nat} (h : m < 10) : (digitChar m).toNat = 48 + m :=
  toNat_ofNat_small (by omega)

theorem isDigitChar_digitChar {m : Nat} (h : m < 10) : isDigitChar (digitChar m) = true := by
  simp only [isDigitChar, toNat_digitChar h]
  simp
  omega

theorem digitChar_ne_mns {m : Nat} (h : m < 10) : digitChar m ≠ mns := by
  intro heq
  have := congrArg Char.toNat heq
  rw [toNat_digitChar h] at this
  have hm : mns.toNat = 45 := by decide
  omega

theorem natToCharsF_digits :
    ∀ fuel n c, c ∈ natToCharsF fuel n → ∃ m, m < 10 ∧ c = digitChar m := by
  intro fuel
  induction fuel with
  | zero =>
    intro n c hc
    simp only [natToCharsF, List.mem_singleton] at hc
    exact ⟨n % 10, by omega, hc⟩
  | succ f ih =>
    intro n c hc
    simp only [natToCharsF] at hc
    by_cases h : n < 10
    · rw [if_pos h] at hc
      simp only [List.mem_singleton] at hc
      exact ⟨n, h, hc⟩
    · rw [if_neg h] at hc
      rcases List.mem_append.mp hc with h2 | h2
      · exact ih (n / 10) c h2
      · simp only [List.mem_singleton] at h2
        exact ⟨n % 10, by omega, h2⟩

theorem natToCharsF_ne_nil (fuel n : Nat) : natToCharsF fuel n ≠ [] := by
  cases fuel with
  | zero => simp [natToCharsF]
  | succ f =>
    simp only [natToCharsF]
    split
    · simp
    · simp

theorem parseDigitsAux_stop {r : List Char} (acc : Nat)
    (hr : ∀ d, r.head? = some d → isDigitChar d = false) :
    parseDigitsAux r acc = (acc, r) := by
  cases r with
  | nil => rfl
  | cons d rest =>
    have hd : isDigitChar d = false := hr d rfl
    simp [parseDigitsAux, hd]

theorem parseDigitsAux_chars :
    ∀ fuel n rest acc, n ≤ fuel →
      parseDigitsAux (natToCharsF fuel n ++ rest) acc =
        parseDigitsAux rest (acc * 10 ^ (natToCharsF fuel n).length + n) := by
  intro fuel
  induction fuel with
  | zero =>
    intro n rest acc hn
    have hn0 : n = 0 := by omega
    subst hn0
    simp only [natToCharsF, List.cons_append, List.nil_append, List.length_cons,
      List.length_nil]
    rw [parseDigitsAux]
    rw [if_pos (isDigitChar_digitChar (by omega : 0 % 10 < 10))]
    rw [toNat_digitChar (by omega : 0 % 10 < 10)]
    norm_num
    ring_nf
  | succ f ih =>
    intro n rest acc hn
    simp only [natToCharsF]
    by_cases h : n < 10
    · rw [if_pos h]
      simp only [List.cons_append, List.nil_append, List.length_cons, List.length_nil]
      rw [parseDigitsAux, if_pos (isDigitChar_digitChar h), toNat_digitChar h]
      norm_num
      ring_nf
    · rw [if_neg h]
      have hdiv : n / 10 ≤ f := by omega
      rw [List.append_assoc, List.singleton_append, ih (n / 10) _ acc hdiv]
      rw [parseDigitsAux, if_pos (isDigitChar_digitChar (by omega : n % 10 < 10)),
        toNat_digitChar (by omega : n % 10 < 10)]
      have hlen : (natToCharsF f (n / 10) ++ [digitChar (n % 10)]).length =
          (natToCharsF f (n / 10)).length + 1 := by
        simp
      rw [hlen]
      congr 1
      have hsplit : 48 + n % 10 - 48 = n % 10 := by omega
      rw [hsplit, pow_succ]
      have h10 : 10 * (n / 10) + n % 10 = n := by omega
      calc 10 * (acc * 10 ^ (natToCharsF f (n / 10)).length + n / 10) + n % 10
          = acc * (10 ^ (natToCharsF f (n / 10)).length * 10) +
            (10 * (n / 10) + n % 10) := by ring
        _ = acc * (10 ^ (natToCharsF f (n / 10)).length * 10) + n := by rw [h10]

theorem parseDigitsAux_natToChars {n : Nat} {rest : List Char}
    (hr : ∀ d, rest.head? = some d → isDigitChar d = false) :
    parseDigitsAux (natToChars n ++ rest) 0 = (n, rest) := by
  unfold natToChars
  rw [parseDigitsAux_chars n n rest 0 (Nat.le_refl n)]
  simp only [Nat.zero_mul, Nat.zero_add]
  exact parseDigitsAux_stop n hr

theorem parseIntTok_intToChars {i : Int} {rest : List Char}
    (hr : ∀ d, rest.head? = some d → isDigitChar d = false) :
    parseIntTok (intToChars i ++ rest) = some (i, rest) := by
  have hA : parseDigitsAux (natToChars i.natAbs ++ rest) 0 = (i.natAbs, rest) :=
    parseDigitsAux_natToChars hr
  obtain ⟨d, dt, hdc⟩ : ∃ d dt, natToChars i.natAbs = d :: dt := by
    cases hnc : natToChars i.natAbs with
    | nil => exact absurd hnc (natToCharsF_ne_nil _ _)
    | cons d dt => exact ⟨d, dt, rfl⟩
  have hdmem : d ∈ natToChars i.natAbs := by
    rw [hdc]
    exact List.mem_cons_self d dt
  obtain ⟨m, hm, hdm⟩ := natToCharsF_digits i.natAbs i.natAbs d hdmem
  have hdig : isDigitChar d = true := by
    rw [hdm]
    exact isDigitChar_digitChar hm
  have hhead : (natToChars i.natAbs ++ rest).head? = some d := by
    rw [hdc]
    rfl
  unfold intToChars
  by_cases hneg : i < 0
  · rw [if_pos hneg, List.cons_append]
    have hu : parseIntTok (mns :: (natToChars i.natAbs ++ rest)) =
        (natToChars i.natAbs ++ rest).head?.bind fun d2 =>
          if isDigitChar d2 then
            some (-(Int.ofNat (parseDigitsAux (natToChars i.natAbs ++ rest) 0).1),
              (parseDigitsAux (natToChars i.natAbs ++ rest) 0).2)
          else none := by
      simp [parseIntTok]
    rw [hu, hhead]
    simp only [Option.some_bind]
    rw [if_pos hdig, hA]
    have hio : -(Int.ofNat i.natAbs) = i := by
      simp only [Int.ofNat_eq_natCast]
      omega
    rw [hio]
  · rw [if_neg hneg]
    have hdmns : ¬ d = mns := by
      rw [hdm]
      exact digitChar_ne_mns hm
    rw [hdc, List.cons_append]
    have hu : parseIntTok (d :: (dt ++ rest)) =
        some (Int.ofNat (parseDigitsAux (d :: (dt ++ rest)) 0).1,
          (parseDigitsAux (d :: (dt ++ rest)) 0).2) := by
      simp [parseIntTok, hdmns, hdig]
    rw [hu]
    have hfold : d :: (dt ++ rest) = natToChars i.natAbs ++ rest := by
      rw [hdc, List.cons_append]
    rw [hfold, hA]
    have hio : Int.ofNat i.natAbs = i := by
      simp only [Int.ofNat_eq_natCast]
      omega
    rw [hio]

/-! # Helper lemmas: JSON round trip for the Project schema -/

theorem expectLit_append (lit r : List Char) : expectLit lit (lit ++ r) = some r := by
  induction lit with
  | nil => rfl
  | cons c cs ih => simp [expectLit, ih]

theorem parseVersionTok_stringify (v : Version) (r : List Char) :
    parseVersionTok (stringifyVersion v ++ r) = some (v, r) := by
  have hshape : stringifyVersion v ++ r =
      (lbr :: keyChars ['h', 'a', 's', 'h'] ++ [qt]) ++
        (List.flatten (List.map escChar v.hash) ++ qt ::
          ((cma :: keyChars ['t', 'i', 'm', 'e', 's', 't', 'a', 'm', 'p']) ++
            (intToChars v.timestamp ++ rbr :: r))) := by
    simp [stringifyVersion, jstr, keyChars]
  rw [hshape]
  unfold parseVersionTok
  rw [expectLit_append]
  simp only [Option.some_bind]
  rw [parseStrBody_esc]
  simp only [Option.some_bind]
  rw [expectLit_append]
  simp only [Option.some_bind]
  rw [parseIntTok_intToChars]
  · simp only [Option.some_bind]
    simp [expectRbr]
  · intro d hd
    simp only [List.head?_cons, Option.some.injEq] at hd
    subst hd
    decide

theorem stringifyVersion_head (v : Version) :
    ∃ t, stringifyVersion v = lbr :: t := ⟨_, rfl⟩

theorem stringifyVersionsTail_head (v : Version) (vs : List Version) :
    ∃ t, stringifyVersionsTail (v :: vs) = lbr :: t := by
  cases vs with
  | nil => exact ⟨_, rfl⟩
  | cons w ws => exact ⟨_, rfl⟩

theorem stringifyVersion_length (v : Version) : 1 ≤ (stringifyVersion v).length := by
  simp [stringifyVersion]

theorem stringifyVersionsTail_length :
    ∀ vs : List Version, vs.length ≤ (stringifyVersionsTail vs).length := by
  intro vs
  induction vs with
  | nil => simp [stringifyVersionsTail]
  | cons v ws ih =>
    cases ws with
    | nil =>
      simp only [stringifyVersionsTail, List.length_cons, List.length_nil]
      have := stringifyVersion_length v
      omega
    | cons w ws2 =>
      simp only [stringifyVersionsTail, List.length_append, List.length_cons] at ih ⊢
      have := stringifyVersion_length v
      omega

theorem parseVersionsAux_succ (fuel : Nat) (l : List Char) :
    parseVersionsAux (fuel + 1) l =
      ((parseVersionTok l).bind fun vl =>
        vl.2.head?.bind fun c =>
          if c = cma then
            (parseVersionsAux fuel vl.2.tail).map fun vsr => (vl.1 :: vsr.1, vsr.2)
          else if c = rbk then some ([vl.1], vl.2.tail)
          else none) := rfl

theorem parseVersionsAux_stringify :
    ∀ vs : List Version, ∀ v fuel r, vs.length + 1 ≤ fuel →
      parseVersionsAux fuel (stringifyVersionsTail (v :: vs) ++ rbk :: r) =
        some (v :: vs, r) := by
  intro vs
  induction vs with
  | nil =>
    intro v fuel r hfuel
    cases fuel with
    | zero => omega
    | succ f =>
      rw [parseVersionsAux_succ]
      simp only [stringifyVersionsTail]
      rw [parseVersionTok_stringify]
      simp only [Option.some_bind, List.head?_cons, List.tail_cons]
      rw [if_neg (by decide : ¬ rbk = cma)]
      simp
  | cons w ws ih =>
    intro v fuel r hfuel
    cases fuel with
    | zero => omega
    | succ f =>
      rw [parseVersionsAux_succ]
      simp only [stringifyVersionsTail, List.append_assoc, List.cons_append]
      rw [parseVersionTok_stringify]
      simp only [Option.some_bind, List.head?_cons, List.tail_cons, if_true]
      have hih := ih w f r (by simp at hfuel ⊢; omega)
      rw [hih]
      rfl

theorem parseVersions_stringify (fuel : Nat) (vs : List Version) (r : List Char)
    (hfuel : vs.length + 1 ≤ fuel) :
    parseVersions fuel (stringifyVersionsTail vs ++ rbk :: r) = some (vs, r) := by
  cases vs with
  | nil =>
    simp only [stringifyVersionsTail, List.nil_append]
    simp [parseVersions]
  | cons v vs2 =>
    obtain ⟨t, ht⟩ := stringifyVersionsTail_head v vs2
    unfold parseVersions
    rw [ht]
    simp only [List.cons_append, List.head?_cons, Option.some_bind]
    rw [if_neg (by decide : ¬ lbr = rbk)]
    rw [← List.cons_append, ← ht]
    refine parseVersionsAux_stringify vs2 v fuel r ?_
    simp only [List.length_cons] at hfuel
    omega

theorem parseProjectTok_stringify (p : Project) (r : List Char) :
    parseProjectTok (stringifyProject p ++ r) = some (p, r) := by
  have hshape : stringifyProject p ++ r =
      (lbr :: keyChars ['i', 'd'] ++ [qt]) ++
        (List.flatten (List.map escChar p.id) ++ qt ::
          ((cma :: keyChars ['d', 'a', 't', 'a'] ++ [qt]) ++
            (List.flatten (List.map escChar p.data) ++ qt ::
              ((cma :: keyChars ['v', 'e', 'r', 's', 'i', 'o', 'n', 's'] ++ [lbk]) ++
                (stringifyVersionsTail p.versions ++ rbk :: (rbr :: r)))))) := by
    simp [stringifyProject, jstr, keyChars, stringifyVersions]
  rw [hshape]
  unfold parseProjectTok
  rw [expectLit_append]
  simp only [Option.some_bind]
  rw [parseStrBody_esc]
  simp only [Option.some_bind]
  rw [expectLit_append]
  simp only [Option.some_bind]
  rw [parseStrBody_esc]
  simp only [Option.some_bind]
  rw [expectLit_append]
  simp only [Option.some_bind]
  rw [parseVersions_stringify]
  · simp only [Option.some_bind]
    simp [expectRbr]
  · have h1 := stringifyVersionsTail_length p.versions
    simp only [List.length_append, List.length_cons]
    omega

/-- The canonical JSON parser is a left inverse of JSON.stringify on
Projects. -/
theorem parseProject_stringify (p : Project) :
    parseProject (stringifyProject p) = some p := by
  have h := parseProjectTok_stringify p []
  rw [List.append_nil] at h
  unfold parseProject
  rw [h]

/-! # Helper lemmas: rows and entries -/

/-- The percent-encoded serialization of a project, as both backends
store it. -/
theorem decodeEntry_enc {id : List Char} (p : Project) (hid : eqc ∉ id) :
    decodeEntry (id ++ eqc :: encodeURIComponent (stringifyProject p)) = some p := by
  have hshape : id ++ eqc :: encodeURIComponent (stringifyProject p) =
      id ++ (eqc :: []) ++ encodeURIComponent (stringifyProject p) := by
    simp
  have hval : entryValue (id ++ eqc :: encodeURIComponent (stringifyProject p)) =
      some (encodeURIComponent (stringifyProject p)) := by
    unfold entryValue
    rw [hshape, jsSplit_sep [] _ hid, jsSplit_no_s0 [] (eqc_not_mem_encode _)]
    rfl
  unfold decodeEntry
  rw [hval]
  simp only [Option.some_bind]
  rw [decode_encode]
  simp only [Option.some_bind]
  exact parseProject_stringify p

theorem rowOf_pair (n v : List Char) : rowOf (n, v) = n ++ eqc :: v := rfl

theorem updateEntry_ne_nil (jar : List (List Char × List Char)) (n v : List Char) :
    updateEntry jar n v ≠ [] := by
  cases jar with
  | nil => simp [updateEntry]
  | cons nv rest =>
    simp only [updateEntry]
    split <;> simp

theorem mem_updateEntry {nv' : List Char × List Char}
    {jar : List (List Char × List Char)} {n v : List Char}
    (h : nv' ∈ updateEntry jar n v) : nv' = (n, v) ∨ nv' ∈ jar := by
  induction jar with
  | nil =>
    simp only [updateEntry, List.mem_singleton] at h
    exact Or.inl h
  | cons nv rest ih =>
    simp only [updateEntry] at h
    by_cases heq : nv.1 = n
    · rw [if_pos heq] at h
      rcases List.mem_cons.mp h with h2 | h2
      · exact Or.inl h2
      · exact Or.inr (List.mem_cons_of_mem nv h2)
    · rw [if_neg heq] at h
      rcases List.mem_cons.mp h with h2 | h2
      · exact Or.inr (h2 ▸ List.mem_cons_self nv rest)
      · rcases ih h2 with h3 | h3
        · exact Or.inl h3
        · exact Or.inr (List.mem_cons_of_mem nv h3)

theorem cookieSave_eq_update (jar : List (List Char × List Char)) (p : Project)
    (hsc : sc ∉ p.id) (heq : eqc ∉ p.id) :
    cookieSave jar p =
      updateEntry jar p.id (encodeURIComponent (stringifyProject p)) := by
  have hdef : cookieSave jar p =
      cookieSet jar (p.id ++ eqc :: encodeURIComponent (stringifyProject p) ++ [sc]) := rfl
  rw [hdef]
  unfold cookieSet
  have hall : ∀ x ∈ p.id ++ eqc :: encodeURIComponent (stringifyProject p),
      (!(x == sc)) = true := by
    intro x hx
    simp only [Bool.not_eq_eq_eq_not, Bool.not_true, beq_eq_false_iff_ne, ne_eq]
    intro hxs
    subst hxs
    rcases List.mem_append.mp hx with h2 | h2
    · exact hsc h2
    · rcases List.mem_cons.mp h2 with h3 | h3
      · exact absurd h3 (by decide)
      · exact sc_not_mem_encode _ h3
  have hy : (!(sc == sc)) = false := by simp
  have hshape : p.id ++ eqc :: encodeURIComponent (stringifyProject p) ++ [sc] =
      (p.id ++ eqc :: encodeURIComponent (stringifyProject p)) ++ sc :: [] := by
    simp
  rw [hshape, takeWhile_all_append hall hy]
  have hall2 : ∀ x ∈ p.id, (!(x == eqc)) = true := by
    intro x hx
    simp only [Bool.not_eq_eq_eq_not, Bool.not_true, beq_eq_false_iff_ne, ne_eq]
    intro hxe
    subst hxe
    exact heq hx
  have hy2 : (!(eqc == eqc)) = false := by simp
  rw [takeWhile_all_append hall2 hy2, dropWhile_all_append hall2 hy2]
  rfl

theorem cookieRows_map :
    ∀ jar : List (List Char × List Char), jar ≠ [] →
      (∀ nv ∈ jar, sc ∉ rowOf nv) → cookieRows jar = jar.map rowOf := by
  intro jar
  induction jar with
  | nil => intro h; exact absurd rfl h
  | cons nv rest ih =>
    intro _ hwf
    cases rest with
    | nil =>
      unfold cookieRows
      have hstr : cookieString [nv] = rowOf nv := rfl
      rw [hstr, jsSplit_no_s0 [sp] (hwf nv (List.mem_cons_self nv []))]
      rfl
    | cons nv2 rest2 =>
      unfold cookieRows
      have hstr : cookieString (nv :: nv2 :: rest2) =
          rowOf nv ++ (sc :: [sp]) ++ cookieString (nv2 :: rest2) := by
        simp [cookieString]
      rw [hstr, jsSplit_sep [sp] _ (hwf nv (List.mem_cons_self nv _))]
      have ih2 := ih (by simp) fun x hx => hwf x (List.mem_cons_of_mem nv hx)
      unfold cookieRows at ih2
      rw [ih2]
      rfl

theorem find_update (jar : List (List Char × List Char)) (id enc : List Char)
    (hno : ∀ nv ∈ jar, nv.1 ≠ id → startsWith id (rowOf nv) = false) :
    ((updateEntry jar id enc).map rowOf).find? (fun r => startsWith id r) =
      some (id ++ eqc :: enc) := by
  induction jar with
  | nil =>
    simp only [updateEntry, List.map_cons, List.map_nil]
    rw [List.find?_cons_of_pos _ (by
      rw [rowOf_pair]
      exact startsWith_append_self id (eqc :: enc))]
    rfl
  | cons nv rest ih =>
    simp only [updateEntry]
    by_cases heq : nv.1 = id
    · rw [if_pos heq]
      simp only [List.map_cons]
      rw [List.find?_cons_of_pos _ (by
        rw [rowOf_pair]
        exact startsWith_append_self id (eqc :: enc))]
      rfl
    · rw [if_neg heq]
      simp only [List.map_cons]
      rw [List.find?_cons_of_neg _ (by
        rw [hno nv (List.mem_cons_self nv rest) heq]
        simp)]
      exact ih fun x hx hne => hno x (List.mem_cons_of_mem nv hx) hne

/-- CookieStorage round trip: from a well-formed jar in which no other
entry's rendered row begins with the project id, a load right after a
save returns the saved project. -/
theorem cookieLoad_save (jar : List (List Char × List Char)) (p : Project)
    (hv : validId p.id) (hwf : jarWF jar)
    (hno : ∀ nv ∈ jar, nv.1 ≠ p.id → startsWith p.id (rowOf nv) = false) :
    cookieLoad (cookieSave jar p) p.id = some p := by
  obtain ⟨hne, hsc, heq, hamp⟩ := hv
  rw [cookieSave_eq_update jar p hsc heq]
  have hwf2 : ∀ nv ∈ updateEntry jar p.id (encodeURIComponent (stringifyProject p)),
      sc ∉ rowOf nv := by
    intro nv hnv
    rcases mem_updateEntry hnv with h2 | h2
    · subst h2
      rw [rowOf_pair]
      intro hmem
      rcases List.mem_append.mp hmem with h3 | h3
      · exact hsc h3
      · rcases List.mem_cons.mp h3 with h4 | h4
        · exact absurd h4 (by decide)
        · exact sc_not_mem_encode _ h4
    · obtain ⟨hn1, hn2⟩ := hwf nv h2
      rw [rowOf_pair nv.1 nv.2]
      intro hmem
      rcases List.mem_append.mp hmem with h3 | h3
      · exact hn1 h3
      · rcases List.mem_cons.mp h3 with h4 | h4
        · exact absurd h4 (by decide)
        · exact hn2 h4
  have hrows : cookieRows (updateEntry jar p.id (encodeURIComponent (stringifyProject p))) =
      (updateEntry jar p.id (encodeURIComponent (stringifyProject p))).map rowOf :=
    cookieRows_map _ (updateEntry_ne_nil jar _ _) hwf2
  have hfind := find_update jar p.id (encodeURIComponent (stringifyProject p)) hno
  unfold cookieLoad cookieLoadOp cookieLoadBody
  simp only [hrows, hfind, decodeEntry_enc p heq]

theorem uriSave_def (frag : List Char) (p : Project) :
    uriSave frag p = p.id ++ eqc :: encodeURIComponent (stringifyProject p) := rfl

theorem uriRows_single (p : Project) (hamp : amp ∉ p.id) :
    uriRows (p.id ++ eqc :: encodeURIComponent (stringifyProject p)) =
      [p.id ++ eqc :: encodeURIComponent (stringifyProject p)] := by
  unfold uriRows
  apply jsSplit_no_s0
  intro hmem
  rcases List.mem_append.mp hmem with h2 | h2
  · exact hamp h2
  · rcases List.mem_cons.mp h2 with h3 | h3
    · exact absurd h3 (by decide)
    · exact amp_not_mem_encode _ h3

/-- UriStorage round trip: a load right after a save returns the saved
project, whatever the fragment held before. -/
theorem uriLoad_save (frag : List Char) (p : Project) (hv : validId p.id) :
    uriLoad (uriSave frag p) p.id = some p := by
  obtain ⟨hne, hsc, heq, hamp⟩ := hv
  rw [uriSave_def]
  unfold uriLoad uriLoadOp uriLoadBody
  rw [uriRows_single p hamp]
  simp only [List.find?_cons_of_pos _ (startsWith_append_self p.id _),
    decodeEntry_enc p heq]

/-- When one id is not a leading segment of another valid id, it does not
match the other id's stored row either. -/
theorem startsWith_row_false {a b z : List Char} (hne : startsWith a b = false)
    (heq : eqc ∉ a) : startsWith a (b ++ eqc :: z) = false := by
  by_contra hcon
  have htrue : startsWith a (b ++ eqc :: z) = true := by
    cases hsw : startsWith a (b ++ eqc :: z) with
    | false => exact absurd hsw hcon
    | true => rfl
  obtain ⟨t, ht⟩ := startsWith_iff_exists.mp htrue
  have hta : a = (b ++ eqc :: z).take a.length := by
    rw [ht, List.take_left]
  rcases le_or_lt a.length b.length with hlen | hlen
  · rw [List.take_append_eq_append_take] at hta
    have hz : a.length - b.length = 0 := by omega
    rw [hz] at hta
    simp only [List.take_zero, List.append_nil] at hta
    have : startsWith a b = true := by
      rw [hta]
      exact startsWith_take
    rw [this] at hne
    exact absurd hne (by simp)
  · rw [List.take_append_eq_append_take] at hta
    have hk : ∃ k, a.length - b.length = k + 1 := ⟨a.length - b.length - 1, by omega⟩
    obtain ⟨k, hk⟩ := hk
    rw [hk] at hta
    simp only [List.take_succ_cons] at hta
    have : eqc ∈ a := by
      rw [hta]
      exact List.mem_append.mpr (Or.inr (List.mem_cons_self eqc _))
    exact heq this

theorem decodeAllRows_none {rows : List (List Char)} {row : List Char}
    (hmem : row ∈ rows) (hdec : decodeEntry row = none) :
    decodeAllRows rows = none := by
  induction rows with
  | nil => simp at hmem
  | cons r rs ih =>
    rcases List.mem_cons.mp hmem with h2 | h2
    · subst h2
      simp [decodeAllRows, hdec]
    · simp only [decodeAllRows, ih h2]
      cases decodeEntry r <;> rfl

theorem listProjects_foldl :
    ∀ (bs : List BackendView) (acc : List Project),
      bs.foldl (fun a b => a ++ b.listAll) acc =
        acc ++ (bs.map BackendView.listAll).flatten := by
  intro bs
  induction bs with
  | nil => intro acc; simp
  | cons b rest ih =>
    intro acc
    simp only [List.foldl_cons, List.map_cons, List.flatten_cons, ih,
      List.append_assoc]

/-! # Claim theorems -/

theorem fetchProject_cons (b : BackendView) (bs : List BackendView) (id : List Char) :
    fetchProject (b :: bs) id =
      (match b.load id with
      | some p => some p
      | none => fetchProject bs id) := rfl

/-- C1: StorageModule.fetchProject invokes load on the backends in list
order and returns the first non-absent result (so with two backends the
earlier one's copy wins), and returns absent when every backend's load
returns absent, including for the empty backend list. -/
theorem fetchProject_first_match (bs : List BackendView) (A : BackendView)
    (id : List Char) (p : Project) :
    (A.load id = some p → fetchProject (A :: bs) id = some p)
  ∧ (A.load id = none → fetchProject (A :: bs) id = fetchProject bs id)
  ∧ ((∀ b ∈ bs, b.load id = none) → fetchProject bs id = none)
  ∧ fetchProject [] id = none := by
  refine ⟨?_, ?_, ?_, rfl⟩
  · intro h
    rw [fetchProject_cons, h]
  · intro h
    rw [fetchProject_cons, h]
  · intro h
    induction bs with
    | nil => rfl
    | cons b rest ih =>
      rw [fetchProject_cons, h b (List.mem_cons_self b rest)]
      exact ih fun x hx => h x (List.mem_cons_of_mem b hx)

theorem fetchProject_first_match_witness :
    fetchProject [bvA, bvB] ['i'] = some wProjA ∧
    fetchProject [] ['i'] = none :=
  ⟨(fetchProject_first_match [bvB] bvA ['i'] wProjA).1 rfl,
   (fetchProject_first_match [] bvA ['i'] wProjA).2.2.2⟩

/-- C5: StorageModule.listProjects returns the concatenation, in backend
order, of each backend's listAll with no deduplication: two backends each
holding one project under the same id yield a two-element result. -/
theorem listProjects_concat_nodedup (bs : List BackendView) (A B : BackendView)
    (p q : Project) :
    listProjects bs = (bs.map BackendView.listAll).flatten
  ∧ (A.listAll = [p] → B.listAll = [q] → (listProjects [A, B]).length = 2) := by
  constructor
  · unfold listProjects
    rw [listProjects_foldl bs []]
    rfl
  · intro h1 h2
    unfold listProjects
    rw [listProjects_foldl [A, B] []]
    simp [h1, h2]

theorem listProjects_concat_nodedup_witness :
    (listProjects [bvA, bvB]).length = 2 :=
  (listProjects_concat_nodedup [] bvA bvB wProjA wProjB).2 rfl rfl

/-- C7: StorageModule.saveProject attempts save on every backend in list
order regardless of outcomes: the trace has one entry per backend,
entry i is determined by backend i alone, and a silently failing backend
leaves the remaining backends' saves untouched. -/
theorem saveProject_all_backends (bs : List BackendView) (A : BackendView)
    (p : Project) (e : JsError) :
    (saveProjectTrace bs p).length = bs.length
  ∧ (∀ i, (saveProjectTrace bs p).get? i = (bs.get? i).map fun b => outcomeOf b p)
  ∧ (A.save p = Except.error e →
      saveProjectTrace (A :: bs) p =
        SaveOutcome.errorCaught :: saveProjectTrace bs p) := by
  refine ⟨?_, ?_, ?_⟩
  · induction bs with
    | nil => rfl
    | cons b rest ih => simp [saveProjectTrace, ih]
  · intro i
    induction bs generalizing i with
    | nil => simp [saveProjectTrace]
    | cons b rest ih =>
      cases i with
      | zero => simp [saveProjectTrace]
      | succ j =>
        have hj := ih j
        simp only [saveProjectTrace, List.get?_cons_succ]
        exact hj
  · intro h
    simp [saveProjectTrace, outcomeOf, h]

theorem saveProject_all_backends_witness :
    saveProjectTrace [bvFail, bvA, bvB] wProjA =
      SaveOutcome.errorCaught :: saveProjectTrace [bvA, bvB] wProjA :=
  (saveProject_all_backends [bvA, bvB] bvFail wProjA JsError.err).2.2 rfl

/-- C9: with an empty medium (empty cookie string, empty fragment), load
of a non-empty id returns absent and listAll returns the empty list, for
both backends, with no error. -/
theorem empty_medium_behavior (id : List Char) (h : id ≠ []) :
    cookieLoad [] id = none ∧ cookieListAll [] = [] ∧
    uriLoad [] id = none ∧ uriListAll [] = [] := by
  obtain ⟨c, cs, rfl⟩ : ∃ c cs, id = c :: cs := by
    cases id with
    | nil => exact absurd rfl h
    | cons c cs => exact ⟨c, cs, rfl⟩
  refine ⟨?_, rfl, ?_, rfl⟩
  · unfold cookieLoad cookieLoadOp cookieLoadBody
    have hrows : cookieRows [] = [[]] := by
      unfold cookieRows
      have hs : cookieString [] = [] := rfl
      rw [hs, jsSplit_nil]
    rw [hrows]
    rw [List.find?_cons_of_neg _ (by simp [startsWith])]
    rfl
  · unfold uriLoad uriLoadOp uriLoadBody
    have hrows : uriRows [] = [[]] := by
      unfold uriRows
      exact jsSplit_nil amp []
    rw [hrows]
    rw [List.find?_cons_of_neg _ (by simp [startsWith])]
    rfl

theorem empty_medium_behavior_witness :
    cookieLoad [] ['a'] = none ∧ cookieListAll [] = [] ∧
    uriLoad [] ['a'] = none ∧ uriListAll [] = [] :=
  empty_medium_behavior ['a'] (by decide)

/-- C2 counterexample: as stated over every medium state the claim fails
for the cookie backend.  With an existing cookie whose key=value row
begins with the saved project's id, load right after save returns the
other entry's project, because load matches rows by leading segment. -/
theorem save_load_roundtrip_counterexample :
    validId wProjA.id ∧
    cookieLoad (cookieSave cexJar wProjA) wProjA.id = some wProjAB ∧
    wProjAB ≠ wProjA := by
  refine ⟨by decide, by decide, by decide⟩

/-- C2 (amended): the round trip holds for the URL-fragment backend from
any prior fragment, and for the cookie backend from any well-formed jar
in which no other entry's rendered row begins with the project's id (in
particular from an empty jar). -/
theorem save_load_roundtrip_amended (p : Project)
    (jar : List (List Char × List Char)) (frag : List Char)
    (hv : validId p.id) (hwf : jarWF jar)
    (hno : ∀ nv ∈ jar, nv.1 ≠ p.id → startsWith p.id (rowOf nv) = false) :
    cookieLoad (cookieSave jar p) p.id = some p ∧
    uriLoad (uriSave frag p) p.id = some p :=
  ⟨cookieLoad_save jar p hv hwf hno, uriLoad_save frag p hv⟩

theorem save_load_roundtrip_amended_witness :
    cookieLoad (cookieSave [] wProjA) wProjA.id = some wProjA ∧
    uriLoad (uriSave [] wProjA) wProjA.id = some wProjA :=
  save_load_roundtrip_amended wProjA [] [] (by decide) (by simp [jarWF])
    (by simp)

/-- C3 counterexample: with distinct valid ids where the first id is a
leading segment of the second, load of the first id after the two saves
returns the second project instead of absent. -/
theorem fragment_single_slot_counterexample :
    validId wProjA.id ∧ validId wProjAB.id ∧ wProjA.id ≠ wProjAB.id ∧
    uriLoad (uriSave (uriSave [] wProjA) wProjAB) wProjA.id = some wProjAB := by
  refine ⟨by decide, by decide, by decide, by decide⟩

/-- C3 (amended): after save(P1) then save(P2) on the fragment backend,
load(P2.id) returns P2, and load(P1.id) returns absent provided P1.id is
not a leading segment of P2.id. -/
theorem fragment_single_slot_amended (p1 p2 : Project) (frag : List Char)
    (h1 : validId p1.id) (h2 : validId p2.id)
    (hpfx : startsWith p1.id p2.id = false) :
    uriLoad (uriSave (uriSave frag p1) p2) p1.id = none ∧
    uriLoad (uriSave (uriSave frag p1) p2) p2.id = some p2 := by
  obtain ⟨hne1, hsc1, heq1, hamp1⟩ := h1
  refine ⟨?_, uriLoad_save _ p2 h2⟩
  obtain ⟨hne2, hsc2, heq2, hamp2⟩ := h2
  rw [uriSave_def]
  unfold uriLoad uriLoadOp uriLoadBody
  rw [uriRows_single p2 hamp2]
  rw [List.find?_cons_of_neg _ (by
    rw [startsWith_row_false hpfx heq1]
    simp)]
  rfl

theorem fragment_single_slot_amended_witness :
    uriLoad (uriSave (uriSave [] wProjA) wProjB) wProjA.id = none ∧
    uriLoad (uriSave (uriSave [] wProjA) wProjB) wProjB.id = some wProjB :=
  fragment_single_slot_amended wProjA wProjB [] (by decide) (by decide) (by decide)

/-- C4 counterexample: an entry stored under the key "ab" is returned by
load("a"): entries under a different key can be returned, because the
backends match by leading segment of the key=value row, not by key
equality. -/
theorem load_prefix_matching_counterexample :
    uriLoad (uriSave [] wProjAB) ['a'] = some wProjAB ∧ wProjAB.id ≠ ['a'] := by
  refine ⟨by decide, by decide⟩

/-- C4 (amended): a backend's load(id) returns a stored project exactly
from the first row of the split medium whose text begins with the
requested id; key equality is not required, so an entry whose key
extends the id can be returned, while a row that does not begin with the
id never is. -/
theorem load_prefix_matching (jar : List (List Char × List Char))
    (frag : List Char) (id : List Char) (p : Project) :
    (cookieLoad jar id = some p →
      ∃ row, (cookieRows jar).find? (fun r => startsWith id r) = some row ∧
        startsWith id row = true ∧ decodeEntry row = some p)
  ∧ (uriLoad frag id = some p →
      ∃ row, (uriRows frag).find? (fun r => startsWith id r) = some row ∧
        startsWith id row = true ∧ decodeEntry row = some p) := by
  constructor
  · intro h
    unfold cookieLoad cookieLoadOp cookieLoadBody at h
    cases hfind : (cookieRows jar).find? (fun r => startsWith id r) with
    | none =>
      rw [hfind] at h
      simp at h
    | some row =>
      rw [hfind] at h
      cases hdec : decodeEntry row with
      | none => simp [hdec] at h
      | some q =>
        simp [hdec] at h
        exact ⟨row, rfl, List.find?_some hfind, by rw [hdec, h]⟩
  · intro h
    unfold uriLoad uriLoadOp uriLoadBody at h
    cases hfind : (uriRows frag).find? (fun r => startsWith id r) with
    | none =>
      rw [hfind] at h
      simp at h
    | some row =>
      rw [hfind] at h
      cases hdec : decodeEntry row with
      | none => simp [hdec] at h
      | some q =>
        simp [hdec] at h
        exact ⟨row, rfl, List.find?_some hfind, by rw [hdec, h]⟩

theorem load_prefix_matching_witness :
    ∃ row, (cookieRows wJarA).find? (fun r => startsWith ['a'] r) = some row ∧
      startsWith ['a'] row = true ∧ decodeEntry row = some wProjA :=
  (load_prefix_matching wJarA [] ['a'] wProjA).1 (by decide)

/-- C6: a cookie medium holding at least one entry whose row does not
decode makes the cookie backend's whole listAll come back empty, and the
aggregator's listProjects still returns the other backend's results. -/
theorem listAll_soft_failure (jar : List (List Char × List Char)) (B : BackendView)
    (h : ∃ row ∈ cookieRows jar, decodeEntry row = none) :
    cookieListAll jar = [] ∧ listProjects [cookieView jar, B] = B.listAll := by
  obtain ⟨row, hmem, hdec⟩ := h
  have hall : decodeAllRows (cookieRows jar) = none := decodeAllRows_none hmem hdec
  have h1 : cookieListAll jar = [] := by
    unfold cookieListAll cookieListAllOp cookieListAllBody
    simp only [hall]
  refine ⟨h1, ?_⟩
  unfold listProjects
  rw [listProjects_foldl [cookieView jar, B] []]
  have h2 : (cookieView jar).listAll = [] := h1
  simp [h2]

theorem listAll_soft_failure_witness :
    cookieListAll badJar = [] ∧
    listProjects [cookieView badJar, bvB] = bvB.listAll :=
  listAll_soft_failure badJar bvB ⟨['x', eqc, 'n', 'o'], by decide, by decide⟩

/-- C8: seen from the caller, every backend operation returns normally
for every medium state and input: the boundary results are always ok,
and when the code inside the try block fails, load degrades to absent
and listAll to the empty list (saves in the model never throw). -/
theorem ops_never_raise (jar : List (List Char × List Char)) (frag : List Char)
    (id : List Char) (p : Project) :
    (∃ r, cookieLoadOp jar id = Except.ok r)
  ∧ (∃ l, cookieListAllOp jar = Except.ok l)
  ∧ (∃ j, cookieSaveOp jar p = Except.ok j)
  ∧ (∃ r, uriLoadOp frag id = Except.ok r)
  ∧ (∃ l, uriListAllOp frag = Except.ok l)
  ∧ (∃ f, uriSaveOp frag p = Except.ok f)
  ∧ (cookieLoadBody jar id = Except.error JsError.err →
      cookieLoadOp jar id = Except.ok none)
  ∧ (cookieListAllBody jar = Except.error JsError.err →
      cookieListAllOp jar = Except.ok [])
  ∧ (uriLoadBody frag id = Except.error JsError.err →
      uriLoadOp frag id = Except.ok none)
  ∧ (uriListAllBody frag = Except.error JsError.err →
      uriListAllOp frag = Except.ok []) := by
  refine ⟨?_, ?_, ?_, ?_, ?_, ?_, ?_, ?_, ?_, ?_⟩
  · unfold cookieLoadOp
    cases cookieLoadBody jar id with
    | ok r => exact ⟨r, rfl⟩
    | error e => exact ⟨none, rfl⟩
  · unfold cookieListAllOp
    cases cookieListAllBody jar with
    | ok l => exact ⟨l, rfl⟩
    | error e => exact ⟨[], rfl⟩
  · unfold cookieSaveOp
    cases cookieSaveBody jar p with
    | ok j => exact ⟨j, rfl⟩
    | error e => exact ⟨jar, rfl⟩
  · unfold uriLoadOp
    cases uriLoadBody frag id with
    | ok r => exact ⟨r, rfl⟩
    | error e => exact ⟨none, rfl⟩
  · unfold uriListAllOp
    cases uriListAllBody frag with
    | ok l => exact ⟨l, rfl⟩
    | error e => exact ⟨[], rfl⟩
  · unfold uriSaveOp
    cases uriSaveBody frag p with
    | ok f => exact ⟨f, rfl⟩
    | error e => exact ⟨frag, rfl⟩
  · intro h
    unfold cookieLoadOp
    rw [h]
  · intro h
    unfold cookieListAllOp
    rw [h]
  · intro h
    unfold uriLoadOp
    rw [h]
  · intro h
    unfold uriListAllOp
    rw [h]

theorem ops_never_raise_witness :
    cookieListAllOp badJar = Except.ok [] ∧
    uriListAllOp badFrag = Except.ok [] :=
  ⟨(ops_never_raise badJar [] [] wProjA).2.2.2.2.2.2.2.1 rfl,
   (ops_never_raise [] badFrag [] wProjA).2.2.2.2.2.2.2.2.2 rfl⟩

/-- C10: loading the empty id on a non-empty medium matches the first
entry of the split medium (every row begins with the empty id), so
whenever that first row decodes, load returns its project rather than
absent; this holds for both backends. -/
theorem load_empty_id_first_entry (jar : List (List Char × List Char))
    (frag : List Char) (p q : Project) (hjar : jar ≠ []) (hfrag : frag ≠ [])
    (hcdec : decodeEntry ((cookieRows jar).headI) = some p)
    (hudec : decodeEntry ((uriRows frag).headI) = some q) :
    cookieLoad jar [] = some p ∧ uriLoad frag [] = some q := by
  constructor
  · obtain ⟨r, rs, hr⟩ : ∃ r rs, cookieRows jar = r :: rs := by
      cases hc : cookieRows jar with
      | nil => exact absurd hc (jsSplit_ne_nil _ _ _)
      | cons r rs => exact ⟨r, rs, rfl⟩
    rw [hr] at hcdec
    simp only [List.headI] at hcdec
    unfold cookieLoad cookieLoadOp cookieLoadBody
    rw [hr, List.find?_cons_of_pos _ rfl]
    simp only [hcdec]
  · obtain ⟨r, rs, hr⟩ : ∃ r rs, uriRows frag = r :: rs := by
      cases hc : uriRows frag with
      | nil => exact absurd hc (jsSplit_ne_nil _ _ _)
      | cons r rs => exact ⟨r, rs, rfl⟩
    rw [hr] at hudec
    simp only [List.headI] at hudec
    unfold uriLoad uriLoadOp uriLoadBody
    rw [hr, List.find?_cons_of_pos _ rfl]
    simp only [hudec]

theorem load_empty_id_first_entry_witness :
    cookieLoad wJarA [] = some wProjA ∧
    uriLoad (uriSave [] wProjB) [] = some wProjB :=
  load_empty_id_first_entry wJarA (uriSave [] wProjB) wProjA wProjB
    (by decide) (by decide) (by decide) (by decide)
